import Mathlib

/-!
Verification of the alloy web client: a shallow embedding of the chat
streaming consumer (web/src/components/report/AIAnalystChat.tsx,
handleSubmit) and of the report source deduplication
(web/src/components/report/ReportView.tsx, uniqueSources), with theorems
about the properties the documentation states for them.

Text is modelled as List Char (JavaScript strings), transport bytes as
List Nat (Uint8Array entries), and the stateful pieces of handleSubmit as
explicit state-passing functions.  Exceptions thrown inside the read loop
(JSON.parse on malformed input, property access on null) are modelled with
Except, carrying the conversation state at the point of the throw, since
the catch handler observes that state.
-/

namespace Alloy

/-! ## JSON values and the JSON.parse model

JValue models the results of JavaScript JSON.parse.  Numbers are kept
exactly as a decimal mantissa and exponent rather than as IEEE doubles;
none of the theorems below depend on numeric payloads. -/

inductive JValue where
  | jnull
  | jbool (b : Bool)
  | jnum (mantissa : Int) (exponent : Int)
  | jstr (s : List Char)
  | jarr (items : List JValue)
  | jobj (fields : List (List Char × JValue))

/-- The left-brace character, written via its code point. -/
def lbraceChar : Char := Char.ofNat 123

/-- The right-brace character, written via its code point. -/
def rbraceChar : Char := Char.ofNat 125

/-- The apostrophe character, written via its code point. -/
def aposChar : Char := Char.ofNat 39

/-- Skip JSON insignificant whitespace. -/
def skipWs : List Char → List Char
  | c :: rest => if c = ' ' ∨ c = '\t' ∨ c = '\n' ∨ c = '\r' then skipWs rest else c :: rest
  | [] => []

/-- Value of a hexadecimal digit. -/
def hexDigitVal (c : Char) : Option Nat :=
  if '0' ≤ c ∧ c ≤ '9' then some (c.toNat - 48)
  else if 'a' ≤ c ∧ c ≤ 'f' then some (c.toNat - 87)
  else if 'A' ≤ c ∧ c ≤ 'F' then some (c.toNat - 55)
  else none

/-- Parse exactly four hexadecimal digits. -/
def hex4 : List Char → Option (Nat × List Char)
  | a :: b :: c :: d :: rest =>
    match hexDigitVal a, hexDigitVal b, hexDigitVal c, hexDigitVal d with
    | some x, some y, some z, some w => some (((x * 16 + y) * 16 + z) * 16 + w, rest)
    | _, _, _, _ => none
  | _ => none

/-- Unicode replacement character U+FFFD. -/
def replChar : Char := Char.ofNat 0xFFFD

/-- Prepend a character to the string part of a string-parser result. -/
def consStr (c : Char) (r : Option (List Char × List Char)) : Option (List Char × List Char) :=
  r.map fun p => (c :: p.1, p.2)

/-- Parse the body of a JSON string after the opening quote, handling the
JSON escape sequences.  Surrogate pairs written with two backslash-u
escapes are combined; a lone surrogate (which JavaScript would keep as an
unpaired UTF-16 code unit) is replaced by U+FFFD, a deviation that none of
the theorems below exercise. -/
def parseStringBody : Nat → List Char → Option (List Char × List Char)
  | 0, _ => none
  | _, [] => none
  | fuel+1, c :: rest =>
    if c = '"' then some ([], rest)
    else if c = '\\' then
      match rest with
      | [] => none
      | e :: rest2 =>
        if e = '"' ∨ e = '\\' ∨ e = '/' then consStr e (parseStringBody fuel rest2)
        else if e = 'b' then consStr (Char.ofNat 8) (parseStringBody fuel rest2)
        else if e = 'f' then consStr (Char.ofNat 12) (parseStringBody fuel rest2)
        else if e = 'n' then consStr '\n' (parseStringBody fuel rest2)
        else if e = 'r' then consStr '\r' (parseStringBody fuel rest2)
        else if e = 't' then consStr '\t' (parseStringBody fuel rest2)
        else if e = 'u' then
          match hex4 rest2 with
          | none => none
          | some (n, rest3) =>
            if 0xD800 ≤ n ∧ n < 0xDC00 then
              match rest3 with
              | '\\' :: 'u' :: rest4 =>
                match hex4 rest4 with
                | some (n2, rest5) =>
                  if 0xDC00 ≤ n2 ∧ n2 < 0xE000 then
                    consStr (Char.ofNat (0x10000 + (n - 0xD800) * 0x400 + (n2 - 0xDC00)))
                      (parseStringBody fuel rest5)
                  else consStr replChar (parseStringBody fuel rest3)
                | none => consStr replChar (parseStringBody fuel rest3)
              | _ => consStr replChar (parseStringBody fuel rest3)
            else if 0xDC00 ≤ n ∧ n < 0xE000 then consStr replChar (parseStringBody fuel rest3)
            else consStr (Char.ofNat n) (parseStringBody fuel rest3)
        else none
    else if c.toNat < 0x20 then none
    else consStr c (parseStringBody fuel rest)

/-- Leading decimal digits of a list and the remainder. -/
def digitsOf (l : List Char) : List Char × List Char :=
  (l.takeWhile Char.isDigit, l.dropWhile Char.isDigit)

/-- Natural number denoted by a list of decimal digits. -/
def natOfDigits (ds : List Char) : Nat :=
  ds.foldl (fun a c => a * 10 + (c.toNat - 48)) 0

/-- Parse an optional JSON fraction part, returning its digits. -/
def parseFrac : List Char → Option (List Char × List Char)
  | '.' :: r =>
    match digitsOf r with
    | (ds, rest) => if ds.isEmpty then none else some (ds, rest)
  | l => some ([], l)

/-- Parse an optional JSON exponent part. -/
def parseExpPart : List Char → Option (Int × List Char)
  | c :: r =>
    if c = 'e' ∨ c = 'E' then
      match r with
      | '+' :: rr =>
        match digitsOf rr with
        | (ds, rest) => if ds.isEmpty then none else some ((natOfDigits ds : Int), rest)
      | '-' :: rr =>
        match digitsOf rr with
        | (ds, rest) => if ds.isEmpty then none else some (-(natOfDigits ds : Int), rest)
      | _ =>
        match digitsOf r with
        | (ds, rest) => if ds.isEmpty then none else some ((natOfDigits ds : Int), rest)
    else some (0, c :: r)
  | [] => some (0, [])

/-- Parse a JSON number per the JSON grammar (optional minus, integer part
with no leading zero, optional fraction and exponent). -/
def parseNumberFrom (input : List Char) : Option (JValue × List Char) :=
  let (neg, l1) :=
    match input with
    | '-' :: r => (true, r)
    | _ => (false, input)
  match digitsOf l1 with
  | (ids, l2) =>
    if ids.isEmpty then none
    else if ids.length > 1 ∧ ids.headD 'x' = '0' then none
    else
      match parseFrac l2 with
      | none => none
      | some (fds, l3) =>
        match parseExpPart l3 with
        | none => none
        | some (ex, l4) =>
          let mant : Int := (natOfDigits (ids ++ fds) : Int)
          let mant := if neg then -mant else mant
          some (.jnum mant (ex - fds.length), l4)

mutual

/-- Recursive-descent JSON value parser, fuel-bounded so that every
definition in the development is structurally recursive and evaluable. -/
def parseValue : Nat → List Char → Option (JValue × List Char)
  | 0, _ => none
  | fuel+1, input =>
    match skipWs input with
    | [] => none
    | c :: rest =>
      if c = 'n' then
        if ['u', 'l', 'l'].isPrefixOf rest then some (.jnull, rest.drop 3) else none
      else if c = 't' then
        if ['r', 'u', 'e'].isPrefixOf rest then some (.jbool true, rest.drop 3) else none
      else if c = 'f' then
        if ['a', 'l', 's', 'e'].isPrefixOf rest then some (.jbool false, rest.drop 4) else none
      else if c = '"' then
        match parseStringBody (rest.length + 1) rest with
        | some (s, rest2) => some (.jstr s, rest2)
        | none => none
      else if c = '[' then
        match skipWs rest with
        | ']' :: rest2 => some (.jarr [], rest2)
        | _ =>
          match parseItems fuel rest with
          | some (items, rest2) => some (.jarr items, rest2)
          | none => none
      else if c = lbraceChar then
        match skipWs rest with
        | [] => none
        | d :: rest2 =>
          if d = rbraceChar then some (.jobj [], rest2)
          else
            match parseMembers fuel rest with
            | some (ms, rest3) => some (.jobj ms, rest3)
            | none => none
      else if c = '-' ∨ c.isDigit then parseNumberFrom (c :: rest)
      else none

/-- Parse the comma-separated items of a non-empty JSON array, including
the closing bracket. -/
def parseItems : Nat → List Char → Option (List JValue × List Char)
  | 0, _ => none
  | fuel+1, input =>
    match parseValue fuel input with
    | none => none
    | some (v, rest) =>
      match skipWs rest with
      | ',' :: rest2 =>
        match parseItems fuel rest2 with
        | some (vs, rest3) => some (v :: vs, rest3)
        | none => none
      | ']' :: rest2 => some ([v], rest2)
      | _ => none

/-- Parse the comma-separated members of a non-empty JSON object,
including the closing brace. -/
def parseMembers : Nat → List Char → Option (List (List Char × JValue) × List Char)
  | 0, _ => none
  | fuel+1, input =>
    match skipWs input with
    | '"' :: rest =>
      match parseStringBody (rest.length + 1) rest with
      | none => none
      | some (k, rest2) =>
        match skipWs rest2 with
        | ':' :: rest3 =>
          match parseValue fuel rest3 with
          | none => none
          | some (v, rest4) =>
            match skipWs rest4 with
            | ',' :: rest5 =>
              match parseMembers fuel rest5 with
              | some (ms, rest6) => some ((k, v) :: ms, rest6)
              | none => none
            | d :: rest5 => if d = rbraceChar then some ([(k, v)], rest5) else none
            | [] => none
        | _ => none
    | _ => none

end

/-- Model of JavaScript JSON.parse: parse one JSON value and require only
whitespace after it; any failure models the exception JSON.parse throws. -/
def jsonParse (s : List Char) : Option JValue :=
  match parseValue (s.length + 2) s with
  | some (v, rest) => if (skipWs rest).isEmpty then some v else none
  | none => none

/-- Property lookup on a parsed JSON value (JavaScript member access on the
parse result): only objects have fields; with duplicate keys JSON.parse
keeps the last binding.  Access on null is handled separately by the
dispatcher model, where it throws. -/
def getField (v : JValue) (k : List Char) : Option JValue :=
  match v with
  | .jobj fields => fields.foldl (fun acc f => if f.1 == k then some f.2 else acc) none
  | _ => none

/-- JavaScript truthiness of a parsed JSON value.  (A number is falsy
exactly when its mantissa is zero; the double rounding JavaScript would
apply to extreme exponents is not modelled, and no theorem below exercises
numeric payloads.) -/
def truthy : JValue → Bool
  | .jnull => false
  | .jbool b => b
  | .jnum m _ => !(m == 0)
  | .jstr s => !s.isEmpty
  | .jarr _ => true
  | .jobj _ => true

/-- JavaScript string coercion of a parsed JSON value, as applied by the
chunk handler's string concatenation.  It is exact for strings — the only
payload kind the chat protocol produces and the only one the theorems
below exercise; numbers, arrays and nested objects are approximated. -/
def jsToString : JValue → List Char
  | .jstr s => s
  | .jnull => "null".data
  | .jbool true => "true".data
  | .jbool false => "false".data
  | .jnum m e => (toString m).data ++ (if e == 0 then [] else 'e' :: (toString e).data)
  | .jarr _ => []
  | .jobj _ => "[object Object]".data

/-! ## Chat conversation data model (AIAnalystChat.tsx) -/

/-- The sender field of a chat Message. -/
inductive Sender where
  | user
  | bot
  | error
  | system
deriving DecidableEq

/-- A chat Message.  isStreaming models the optional boolean flag with
undefined read as false; sources carries the payloads attached to the
synthetic system message (stored untyped, as the consumer pushes the raw
parsed payloads). -/
structure Message where
  id : List Char
  sender : Sender
  text : List Char
  isStreaming : Bool
  sources : Option (List JValue)

/-- The state the stream-consumption loop mutates: the messages array and
the sourceList side array. -/
structure ChatState where
  messages : List Message
  sourceList : List JValue

/-- The record marker checked with startsWith before JSON-parsing a
record; the consumer then drops its six characters. -/
def dataMarker : List Char := "data: ".data

/-- The fixed client-side error text installed by the catch handler. -/
def errorMessage : List Char :=
  "I".data ++ [aposChar] ++ "m sorry, I encountered an error. Please try again.".data

/-- The payload field of a parsed record, or none when absent. -/
def payloadOf (v : JValue) : Option JValue := getField v "payload".data

/-- The payload value a handler branch uses once its truthiness check
succeeded (the getD default is never the value actually read there). -/
def payloadVal (v : JValue) : JValue := (payloadOf v).getD .jnull

/-- Truthiness of the payload field, false when the field is absent
(undefined is falsy). -/
def payloadTruthy (v : JValue) : Bool :=
  match payloadOf v with
  | some p => truthy p
  | none => false

/-- Whether the type field of a parsed record is the given string. -/
def typeIs (v : JValue) (t : List Char) : Bool :=
  match getField v "type".data with
  | some (.jstr s) => s == t
  | _ => false

/-- The source, chunk and error branches of the record dispatcher, tried
in order, each guarded by the type tag and payload truthiness; an
unmatched record leaves the state unchanged. -/
def dispatchData (botId : List Char) (st : ChatState) (data : JValue) : ChatState :=
  if typeIs data "source".data && payloadTruthy data then
    { st with sourceList := st.sourceList ++ [payloadVal data] }
  else if typeIs data "chunk".data && payloadTruthy data then
    { st with messages := st.messages.map fun m =>
      if m.id == botId then { m with text := m.text ++ jsToString (payloadVal data) } else m }
  else if typeIs data "error".data && payloadTruthy data then
    { st with messages := st.messages.map fun m =>
      if m.id == botId then { m with text := jsToString (payloadVal data), sender := .error } else m }
  else st

/-- One iteration of the record dispatcher over one complete record:
records without the data marker are skipped; JSON.parse failure, and
member access on a parsed null, throw (Except.error carries the state at
the throw); any other parse result is dispatched. -/
def applyLine (botId : List Char) (st : ChatState) (line : List Char) :
    Except ChatState ChatState :=
  if dataMarker.isPrefixOf line then
    match jsonParse (line.drop 6) with
    | none => .error st
    | some .jnull => .error st
    | some data => .ok (dispatchData botId st data)
  else .ok st

/-- Dispatch a list of complete records in order, stopping at a throw. -/
def runLines (botId : List Char) (st : ChatState) (lines : List (List Char)) :
    Except ChatState ChatState :=
  lines.foldlM (applyLine botId) st

/-- The conversation state an Except result holds, whether or not a throw
occurred. -/
def resultState : Except ChatState ChatState → ChatState
  | .ok st => st
  | .error st => st

/-- The user message appended at submission time. -/
def mkUserMessage (userId input : List Char) : Message :=
  ⟨userId, .user, input, false, none⟩

/-- The placeholder bot message streaming starts into. -/
def mkBotPlaceholder (botId : List Char) : Message :=
  ⟨botId, .bot, [], true, none⟩

/-- The synthetic system message carrying the accumulated sources. -/
def mkSystemMessage (sysId : List Char) (qs : List JValue) : Message :=
  ⟨sysId, .system, [], false, some qs⟩

/-- After the stream ends normally: when sources were collected, insert a
single system message immediately before the bot message (the splice at
the found index); otherwise, or when the bot message is gone, leave the
log unchanged. -/
def flushSources (botId sysId : List Char) (st : ChatState) : List Message :=
  if st.sourceList.isEmpty then st.messages
  else
    match st.messages.findIdx? (fun m => m.id == botId) with
    | some i => st.messages.take i ++ mkSystemMessage sysId st.sourceList :: st.messages.drop i
    | none => st.messages

/-- The finally clause: mark the bot message as no longer streaming. -/
def clearStreaming (botId : List Char) (msgs : List Message) : List Message :=
  msgs.map fun m => if m.id == botId then { m with isStreaming := false } else m

/-- The catch handler: replace the bot message's text with the fixed error
text, clear its streaming flag and set its sender to error. -/
def catchMessages (botId : List Char) (msgs : List Message) : List Message :=
  msgs.map fun m =>
    if m.id == botId then { m with text := errorMessage, isStreaming := false, sender := .error }
    else m

/-- Stream consumption at record granularity: dispatch the records, then
on normal completion flush the sources and run the finally clause; on a
throw run the catch handler and then the finally clause. -/
def handleStreamLines (botId sysId : List Char) (st0 : ChatState)
    (lines : List (List Char)) : List Message :=
  match runLines botId st0 lines with
  | .ok st => clearStreaming botId (flushSources botId sysId st)
  | .error st => clearStreaming botId (catchMessages botId st.messages)

/-- The conversation state right after handleSubmit appended the user
message and the streaming placeholder. -/
def initialState (userId botId input : List Char) (msgs0 : List Message) : ChatState :=
  ⟨msgs0 ++ [mkUserMessage userId input, mkBotPlaceholder botId], []⟩

/-- handleSubmit from the appends onward, at record granularity. -/
def handleSubmitLines (userId botId sysId input : List Char) (msgs0 : List Message)
    (lines : List (List Char)) : List Message :=
  handleStreamLines botId sysId (initialState userId botId input msgs0) lines

/-- The history sent to the backend: every message whose sender is bot
becomes role assistant, every other sender becomes role user, with the
message text as content. -/
structure ApiMessage where
  role : List Char
  content : List Char
deriving DecidableEq

/-- The historyForApi mapping of handleSubmit. -/
def historyForApi (msgs : List Message) : List ApiMessage :=
  msgs.map fun m => ⟨if m.sender == Sender.bot then "assistant".data else "user".data, m.text⟩

/-- Number of messages whose streaming flag is set. -/
def streamingCount (msgs : List Message) : Nat :=
  (msgs.filter fun m => m.isStreaming).length

/-! ## Incremental UTF-8 decoding (the TextDecoder used by the consumer)

The decoder is modelled as in the WHATWG encoding standard for valid
input: with stream set, a trailing incomplete sequence is retained as
pending bytes for the next call.  On invalid input it emits U+FFFD and
resynchronises at the offending byte; the exact maximal-subpart error
handling of TextDecoder is simplified, and every theorem below that
involves the decoder feeds it only valid UTF-8. -/

/-- Whether a byte is a UTF-8 continuation byte. -/
def isCont (b : Nat) : Bool := 0x80 ≤ b && b < 0xC0

/-- How many continuation bytes a lead byte announces (0 for bytes that
cannot begin a multi-byte sequence). -/
def contCount (b : Nat) : Nat :=
  if b < 0xC0 then 0 else if b < 0xE0 then 1 else if b < 0xF0 then 2
  else if b < 0xF8 then 3 else 0

/-- Take up to n leading continuation bytes. -/
def splitConts : Nat → List Nat → List Nat × List Nat
  | 0, bs => ([], bs)
  | _+1, [] => ([], [])
  | n+1, b :: bs =>
    if isCont b then
      match splitConts n bs with
      | (cs, r) => (b :: cs, r)
    else ([], b :: bs)

/-- The code-point bits carried by a lead byte. -/
def leadVal (b : Nat) : Nat :=
  if b < 0xE0 then b - 0xC0 else if b < 0xF0 then b - 0xE0 else b - 0xF0

/-- The smallest code point a sequence headed by this lead byte may
encode (shorter encodings would be overlong). -/
def minCp (b : Nat) : Nat :=
  if b < 0xE0 then 0x80 else if b < 0xF0 then 0x800 else 0x10000

/-- Assemble a code point from a lead byte and its continuation bytes,
yielding U+FFFD for overlong forms, surrogates and out-of-range values. -/
def assemble (b : Nat) (cs : List Nat) : Char :=
  let cp := cs.foldl (fun a c => a * 64 + (c - 0x80)) (leadVal b)
  if minCp b ≤ cp ∧ cp < 0x110000 ∧ ¬(0xD800 ≤ cp ∧ cp < 0xE000) then Char.ofNat cp
  else replChar

/-- One decoding step: either one decoded character together with the
unconsumed bytes, or the whole remaining input retained as an incomplete
trailing sequence. -/
inductive DecStep where
  | emit (c : Char) (rest : List Nat)
  | pend (p : List Nat)

/-- Decide one UTF-8 decoding step. -/
def decStep : List Nat → DecStep
  | [] => .pend []
  | b :: bs =>
    if b < 0x80 then .emit (Char.ofNat b) bs
    else if contCount b = 0 then .emit replChar bs
    else
      match splitConts (contCount b) bs with
      | (cs, rest) =>
        if cs.length = contCount b then .emit (assemble b cs) rest
        else if rest.isEmpty then .pend (b :: cs)
        else .emit replChar rest

/-- Run decoding steps under a fuel bound (one unit per emitted
character suffices, since every emit consumes at least one byte). -/
def utf8DecodeLoop : Nat → List Nat → List Char × List Nat
  | 0, l => ([], l)
  | fuel+1, l =>
    match decStep l with
    | .pend p => ([], p)
    | .emit c rest =>
      match utf8DecodeLoop fuel rest with
      | (cs, pn) => (c :: cs, pn)

/-- Decode a byte sequence maximally, returning the decoded text and the
retained incomplete trailing sequence. -/
def utf8DecodeCore (l : List Nat) : List Char × List Nat := utf8DecodeLoop l.length l

/-- UTF-8 encoding of one character. -/
def utf8EncodeChar (c : Char) : List Nat :=
  let n := c.toNat
  if n < 0x80 then [n]
  else if n < 0x800 then [0xC0 + n / 64, 0x80 + n % 64]
  else if n < 0x10000 then [0xE0 + n / 4096, 0x80 + n / 64 % 64, 0x80 + n % 64]
  else [0xF0 + n / 262144, 0x80 + n / 4096 % 64, 0x80 + n / 64 % 64, 0x80 + n % 64]

/-- UTF-8 encoding of a text. -/
def utf8Encode (s : List Char) : List Nat := (s.map utf8EncodeChar).flatten

/-! ## Record framing: splitting the accumulation buffer on the
double-newline separator, as the consumer's split does. -/

/-- Extend the first segment of a split result by one character. -/
def consHead (c : Char) : List (List Char) → List (List Char)
  | [] => [[c]]
  | s :: ss => (c :: s) :: ss

/-- Greedy leftmost split on the two-newline record separator, matching
the JavaScript split with that separator string. -/
def splitRecords : List Char → List (List Char)
  | [] => [[]]
  | '\n' :: '\n' :: rest => [] :: splitRecords rest
  | c :: rest => consHead c (splitRecords rest)

/-- Whether a text contains no two-newline separator. -/
def sepFree : List Char → Bool
  | '\n' :: '\n' :: _ => false
  | _ :: rest => sepFree rest
  | [] => true

/-- Join segments with the two-newline separator (used to reason about
splitRecords). -/
def joinSep : List (List Char) → List Char
  | [] => []
  | [s] => s
  | s :: ss => s ++ '\n' :: '\n' :: joinSep ss

/-! ## The transport-level read loop -/

/-- The loop state across transport reads: the decoder's pending bytes,
the accumulation buffer (the retained final segment), and the
conversation state. -/
structure LoopState where
  decPending : List Nat
  buffer : List Char
  chat : ChatState

/-- Process one transport read: decode the bytes with the stateful
decoder, append the text to the buffer, split on the record separator,
dispatch all complete segments in order and retain the final segment. -/
def processRead (botId : List Char) (ls : LoopState) (bytes : List Nat) :
    Except ChatState LoopState :=
  match utf8DecodeCore (ls.decPending ++ bytes) with
  | (txt, pn) =>
    let segs := splitRecords (ls.buffer ++ txt)
    match runLines botId ls.chat segs.dropLast with
    | .ok st => .ok ⟨pn, segs.getLastD [], st⟩
    | .error st => .error st

/-- The while-loop over transport reads, stopping at a throw. -/
def runReads (botId : List Char) (ls : LoopState) (reads : List (List Nat)) :
    Except ChatState LoopState :=
  reads.foldlM (processRead botId) ls

/-- Stream consumption at transport granularity, followed by the source
flush on normal completion, the catch handler on a throw, and the finally
clause on both paths. -/
def handleStreamBytes (botId sysId : List Char) (st0 : ChatState)
    (reads : List (List Nat)) : List Message :=
  match runReads botId ⟨[], [], st0⟩ reads with
  | .ok ls => clearStreaming botId (flushSources botId sysId ls.chat)
  | .error st => clearStreaming botId (catchMessages botId st.messages)

/-- handleSubmit from the appends onward, at transport granularity. -/
def handleSubmit (userId botId sysId input : List Char) (msgs0 : List Message)
    (reads : List (List Nat)) : List Message :=
  handleStreamBytes botId sysId (initialState userId botId input msgs0) reads

/-! ## Record shapes used to state the claims -/

/-- A record that the dispatcher recognises as a chunk event carrying the
string payload p. -/
def isChunkLine (p : List Char) (line : List Char) : Bool :=
  dataMarker.isPrefixOf line &&
    match jsonParse (line.drop 6) with
    | some d =>
      typeIs d "chunk".data &&
        match payloadOf d with
        | some (.jstr q) => q == p
        | _ => false
    | none => false

/-- A record that the dispatcher recognises as a source event carrying the
truthy payload q. -/
def SourceLine (q : JValue) (line : List Char) : Prop :=
  dataMarker.isPrefixOf line = true ∧
    match jsonParse (line.drop 6) with
    | some d => typeIs d "source".data = true ∧ payloadOf d = some q ∧ truthy q = true
    | none => False

/-- A record that the dispatcher recognises as an error event carrying the
non-empty string payload p. -/
def isErrorLine (p : List Char) (line : List Char) : Bool :=
  dataMarker.isPrefixOf line &&
    match jsonParse (line.drop 6) with
    | some d =>
      typeIs d "error".data &&
        match payloadOf d with
        | some (.jstr q) => q == p && !q.isEmpty
        | _ => false
    | none => false

/-- A well-formed record whose type tag is complete. -/
def CompleteLine (line : List Char) : Prop :=
  dataMarker.isPrefixOf line = true ∧
    match jsonParse (line.drop 6) with
    | some d => getField d "type".data = some (.jstr "complete".data)
    | none => False

/-- Chat stream events, used to describe a whole stream of records. -/
inductive ChatEvent where
  | chunkEv (p : List Char)
  | sourceEv (q : JValue)

/-- The record list realising a list of events. -/
def lineMatches : ChatEvent → List Char → Prop
  | .chunkEv p, line => isChunkLine p line = true
  | .sourceEv q, line => SourceLine q line

/-- The chunk payloads of an event list, in order. -/
def chunkPayloads (es : List ChatEvent) : List (List Char) :=
  es.filterMap fun e =>
    match e with
    | .chunkEv p => some p
    | _ => none

/-- The source payloads of an event list, in order. -/
def sourcePayloads (es : List ChatEvent) : List JValue :=
  es.filterMap fun e =>
    match e with
    | .sourceEv q => some q
    | _ => none

/-- Append text to the bot message (the cumulative effect of chunk
events on the message list). -/
def appendTo (botId t : List Char) (msgs : List Message) : List Message :=
  msgs.map fun m => if m.id == botId then { m with text := m.text ++ t } else m

/-- No message in the list carries the given id. -/
def idFree (i : List Char) (msgs : List Message) : Bool :=
  msgs.all fun m => !(m.id == i)

/-! ## Report source deduplication (ReportView.tsx) -/

/-- A web source citation: a URL and an optional title. -/
structure GroundingSource where
  url : String
  title : Option String
deriving DecidableEq

/-- Insertion into a JavaScript Set modelled as an insertion-ordered list:
already-present values are ignored, new values go to the end. -/
def setAdd (seen : List String) (u : String) : List String :=
  if u ∈ seen then seen else seen ++ [u]

/-- The insertion-ordered element list of new Set(l), as Array.from returns it. -/
def setOfList (l : List String) : List String := l.foldl setAdd []

/-- The uniqueSources computation of ReportView: deduplicate the URLs in
first-seen order, then map each URL back to its first occurrence via
find.  (The source's non-null assertion on find never fails because every
deduplicated URL came from the list; the getD default is never used.) -/
def uniqueSources (allSources : List GroundingSource) : List GroundingSource :=
  (setOfList (allSources.map fun s => s.url)).map fun url =>
    (allSources.find? fun s => s.url == url).getD ⟨url, none⟩

/-- First-occurrence deduplication in direct recursive form, used to
reason about setOfList. -/
def nubFirst : List String → List String
  | [] => []
  | u :: rest => u :: nubFirst (rest.filter fun v => !(v == u))
termination_by l => l.length
decreasing_by
  simp only [List.length_cons]
  exact Nat.lt_succ_of_le (List.length_filter_le _ _)

/-! ## Lemmas: deduplication -/

theorem nubFirst_cons (u : String) (rest : List String) :
    nubFirst (u :: rest) = u :: nubFirst (rest.filter fun v => !(v == u)) := by
  rw [nubFirst]

theorem mem_nubFirst (v : String) (l : List String) : v ∈ nubFirst l ↔ v ∈ l := by
  induction l using nubFirst.induct with
  | case1 => simp [nubFirst]
  | case2 u rest ih =>
    rw [nubFirst_cons]
    simp only [List.mem_cons, ih, List.mem_filter, Bool.not_eq_true', beq_eq_false_iff_ne]
    constructor
    · rintro (h | ⟨h, _⟩)
      · exact Or.inl h
      · exact Or.inr h
    · rintro (h | h)
      · exact Or.inl h
      · by_cases hv : v = u
        · exact Or.inl hv
        · exact Or.inr ⟨h, hv⟩

theorem nodup_nubFirst (l : List String) : (nubFirst l).Nodup := by
  induction l using nubFirst.induct with
  | case1 => simp [nubFirst]
  | case2 u rest ih =>
    rw [nubFirst_cons]
    refine List.Nodup.cons ?_ ih
    intro hmem
    have := (mem_nubFirst u _).mp hmem
    simp only [List.mem_filter, Bool.not_eq_true', beq_eq_false_iff_ne] at this
    exact this.2 rfl

theorem nubFirst_eq_self_of_nodup (l : List String) (h : l.Nodup) : nubFirst l = l := by
  induction l using nubFirst.induct with
  | case1 => rw [nubFirst]
  | case2 u rest ih =>
    rw [nubFirst_cons]
    rcases List.nodup_cons.mp h with ⟨hu, hrest⟩
    have hf : rest.filter (fun v => !(v == u)) = rest := by
      rw [List.filter_eq_self]
      intro a ha
      simp only [Bool.not_eq_true', beq_eq_false_iff_ne]
      exact fun hau => hu (hau ▸ ha)
    rw [hf] at ih ⊢
    rw [ih hrest]

theorem foldl_setAdd (l acc : List String) :
    l.foldl setAdd acc = acc ++ nubFirst (l.filter fun v => !(decide (v ∈ acc))) := by
  induction l generalizing acc with
  | nil => simp [nubFirst]
  | cons x l ih =>
    simp only [List.foldl_cons]
    by_cases hx : x ∈ acc
    · have h0 : setAdd acc x = acc := by simp [setAdd, hx]
      rw [h0, ih acc, List.filter_cons]
      simp [hx]
    · have h1 : setAdd acc x = acc ++ [x] := by simp [setAdd, hx]
      rw [h1, ih (acc ++ [x]), List.filter_cons]
      simp only [hx, decide_False, Bool.not_false, if_pos]
      rw [nubFirst_cons, List.append_assoc, List.singleton_append]
      congr 2
      rw [List.filter_filter]
      refine congrArg nubFirst (List.filter_congr ?_)
      intro a _
      by_cases hax : a = x <;> by_cases haa : a ∈ acc <;>
        simp [hax, haa]

theorem setOfList_eq_nubFirst (l : List String) : setOfList l = nubFirst l := by
  rw [setOfList, foldl_setAdd]
  simp

theorem indexOf_filter_lt {p : String → Bool} (l : List String) (v w : String)
    (hv : v ∈ l.filter p) (hw : w ∈ l.filter p)
    (h : (l.filter p).indexOf v < (l.filter p).indexOf w) :
    l.indexOf v < l.indexOf w := by
  induction l with
  | nil => simp at hv
  | cons x l ih =>
    by_cases hpx : p x
    · rw [List.filter_cons_of_pos hpx] at hv hw h
      by_cases hvx : v = x
      · subst hvx
        have hwx : w ≠ v := by
          intro hw'
          subst hw'
          exact Nat.lt_irrefl _ h
        rw [List.indexOf_cons_self]
        rw [List.indexOf_cons_ne _ (fun hc => hwx hc.symm)]
        exact Nat.succ_pos _
      · by_cases hwx : w = x
        · subst hwx
          rw [List.indexOf_cons_self] at h
          rw [List.indexOf_cons_ne _ (fun hc => hvx hc.symm)] at h
          exact absurd h (Nat.not_lt_zero _)
        · rw [List.indexOf_cons_ne _ (fun hc => hvx hc.symm),
            List.indexOf_cons_ne _ (fun hc => hwx hc.symm)] at h
          rw [List.indexOf_cons_ne _ (fun hc => hvx hc.symm),
            List.indexOf_cons_ne _ (fun hc => hwx hc.symm)]
          have hv' : v ∈ l.filter p := by
            rcases List.mem_cons.mp hv with h' | h'
            · exact absurd h' hvx
            · exact h'
          have hw' : w ∈ l.filter p := by
            rcases List.mem_cons.mp hw with h' | h'
            · exact absurd h' hwx
            · exact h'
          exact Nat.succ_lt_succ (ih hv' hw' (Nat.lt_of_succ_lt_succ h))
    · rw [List.filter_cons_of_neg hpx] at hv hw h
      have hvx : v ≠ x := by
        intro hc
        subst hc
        exact hpx (List.of_mem_filter hv)
      have hwx : w ≠ x := by
        intro hc
        subst hc
        exact hpx (List.of_mem_filter hw)
      rw [List.indexOf_cons_ne _ (fun hc => hvx hc.symm),
        List.indexOf_cons_ne _ (fun hc => hwx hc.symm)]
      exact Nat.succ_lt_succ (ih hv hw h)

theorem pairwise_indexOf_nubFirst (l : List String) :
    (nubFirst l).Pairwise (fun u v => l.indexOf u < l.indexOf v) := by
  induction l using nubFirst.induct with
  | case1 => simp [nubFirst]
  | case2 u rest ih =>
    rw [nubFirst_cons]
    refine List.Pairwise.cons ?_ ?_
    · intro v hv
      have hv' := (mem_nubFirst v _).mp hv
      have hvu : v ≠ u := by
        have := List.of_mem_filter hv'
        simpa using this
      rw [List.indexOf_cons_self, List.indexOf_cons_ne _ (fun hc => hvu hc.symm)]
      exact Nat.succ_pos _
    · refine List.Pairwise.imp_of_mem ?_ ih
      intro a b ha hb hab
      have ha' := (mem_nubFirst a _).mp ha
      have hb' := (mem_nubFirst b _).mp hb
      have hau : a ≠ u := by simpa using List.of_mem_filter ha'
      have hbu : b ≠ u := by simpa using List.of_mem_filter hb'
      rw [List.indexOf_cons_ne _ (fun hc => hau hc.symm),
        List.indexOf_cons_ne _ (fun hc => hbu hc.symm)]
      exact Nat.succ_lt_succ (indexOf_filter_lt rest a b ha' hb' hab)

theorem find?_url_of_mem (L : List GroundingSource) (u : String)
    (h : u ∈ L.map fun s => s.url) :
    ∃ t, (L.find? fun s => s.url == u) = some t ∧ t.url = u := by
  induction L with
  | nil => simp at h
  | cons x L ih =>
    by_cases hx : x.url = u
    · exact ⟨x, by rw [List.find?_cons_of_pos _ (by simp [hx])], hx⟩
    · simp only [List.map_cons, List.mem_cons] at h
      rcases h with h | h
      · exact absurd h.symm hx
      · rcases ih h with ⟨t, ht, hu⟩
        exact ⟨t, by rw [List.find?_cons_of_neg _ (by simp [hx])]; exact ht, hu⟩

theorem map_url_uniqueSources (L : List GroundingSource) :
    ((uniqueSources L).map fun s => s.url) = setOfList (L.map fun s => s.url) := by
  rw [uniqueSources, List.map_map]
  have h : ∀ u ∈ setOfList (L.map fun s => s.url),
      (((fun s => s.url) ∘ fun url => (L.find? fun s => s.url == url).getD ⟨url, none⟩) u) = id u := by
    intro u hu
    have humem : u ∈ L.map fun s => s.url := by
      rw [setOfList_eq_nubFirst] at hu
      exact (mem_nubFirst u _).mp hu
    rcases find?_url_of_mem L u humem with ⟨t, ht, hturl⟩
    simp only [Function.comp_apply, ht, Option.getD_some, id]
    exact hturl
  rw [List.map_congr_left h, List.map_id]

theorem find?_self_of_nodup_urls (M : List GroundingSource)
    (hn : (M.map fun s => s.url).Nodup) (s : GroundingSource) (hs : s ∈ M) :
    (M.find? fun t => t.url == s.url) = some s := by
  induction M with
  | nil => simp at hs
  | cons x M ih =>
    simp only [List.map_cons, List.nodup_cons] at hn
    rcases List.mem_cons.mp hs with h | h
    · subst h
      rw [List.find?_cons_of_pos _ (by simp)]
    · have hxs : x.url ≠ s.url := by
        intro hc
        exact hn.1 (hc ▸ List.mem_map_of_mem (fun t => t.url) h)
      rw [List.find?_cons_of_neg _ (by simp [hxs])]
      exact ih hn.2 h

theorem uniqueSources_eq_self (M : List GroundingSource)
    (hn : (M.map fun s => s.url).Nodup) : uniqueSources M = M := by
  rw [uniqueSources, setOfList_eq_nubFirst, nubFirst_eq_self_of_nodup _ hn, List.map_map]
  have h : ∀ s ∈ M,
      ((fun url => (M.find? fun t => t.url == url).getD ⟨url, none⟩) ∘ fun s => s.url) s = id s := by
    intro s hs
    simp only [Function.comp_apply, id]
    rw [find?_self_of_nodup_urls M hn s hs, Option.getD_some]
  rw [List.map_congr_left h, List.map_id]

theorem nodup_url_uniqueSources (L : List GroundingSource) :
    ((uniqueSources L).map fun s => s.url).Nodup := by
  rw [map_url_uniqueSources, setOfList_eq_nubFirst]
  exact nodup_nubFirst _

theorem find?_first_uniqueSources (L : List GroundingSource) (s : GroundingSource)
    (hs : s ∈ uniqueSources L) : (L.find? fun t => t.url == s.url) = some s := by
  rw [uniqueSources] at hs
  rcases List.mem_map.mp hs with ⟨u, hu, hentry⟩
  have humem : u ∈ L.map fun s => s.url := by
    rw [setOfList_eq_nubFirst] at hu
    exact (mem_nubFirst u _).mp hu
  rcases find?_url_of_mem L u humem with ⟨t, ht, hturl⟩
  have hst : s = t := by
    rw [← hentry, ht, Option.getD_some]
  subst hst
  rw [hturl]
  exact ht

/-- C4: uniqueSources applied to the concatenation of any source lists
contains each distinct URL exactly once (its URL list has no duplicates
and has exactly the URLs of the input), lists them in first-seen order
(URLs appear sorted by their first index in the concatenated input), and
maps each URL to its first occurrence in the input, so the first
occurrence's title wins. -/
theorem uniqueSources_concat_spec (ls : List (List GroundingSource)) :
    ((uniqueSources ls.flatten).map fun s => s.url).Nodup
    ∧ (∀ u, (u ∈ (uniqueSources ls.flatten).map fun s => s.url) ↔
        u ∈ ls.flatten.map fun s => s.url)
    ∧ ((uniqueSources ls.flatten).map fun s => s.url).Pairwise
        (fun u v => (ls.flatten.map fun s => s.url).indexOf u <
          (ls.flatten.map fun s => s.url).indexOf v)
    ∧ ∀ s ∈ uniqueSources ls.flatten, (ls.flatten.find? fun t => t.url == s.url) = some s := by
  refine ⟨nodup_url_uniqueSources _, ?_, ?_, fun s hs => find?_first_uniqueSources _ s hs⟩
  · intro u
    rw [map_url_uniqueSources, setOfList_eq_nubFirst]
    exact mem_nubFirst u _
  · rw [map_url_uniqueSources, setOfList_eq_nubFirst]
    exact pairwise_indexOf_nubFirst _

/-- C4 witness: on the documented example, the first occurrence of URL a
(with title A1) wins over the later occurrence (with title A2). -/
theorem uniqueSources_concat_spec_witness :
    (⟨"a", some "A1"⟩ ∈ uniqueSources
      ([[⟨"a", some "A1"⟩], [⟨"b", none⟩, ⟨"a", some "A2"⟩]] : List (List GroundingSource)).flatten)
    ∧ (([[⟨"a", some "A1"⟩], [⟨"b", none⟩, ⟨"a", some "A2"⟩]] :
        List (List GroundingSource)).flatten.find? fun t => t.url == "a") =
        some ⟨"a", some "A1"⟩ :=
  ⟨by decide,
   (uniqueSources_concat_spec [[⟨"a", some "A1"⟩], [⟨"b", none⟩, ⟨"a", some "A2"⟩]]).2.2.2
     ⟨"a", some "A1"⟩ (by decide)⟩

/-- C5: uniqueSources is idempotent. -/
theorem uniqueSources_idempotent (L : List GroundingSource) :
    uniqueSources (uniqueSources L) = uniqueSources L :=
  uniqueSources_eq_self _ (nodup_url_uniqueSources L)

/-! ## Lemmas: the record dispatcher -/

theorem Message.ext_iff' (m : Message) :
    m = ⟨m.id, m.sender, m.text, m.isStreaming, m.sources⟩ := rfl

theorem typeIs_eq_true_iff (d : JValue) (t : List Char) :
    typeIs d t = true ↔ getField d "type".data = some (.jstr t) := by
  rw [typeIs]
  cases h : getField d "type".data with
  | none => simp
  | some v => cases v <;> simp

theorem typeIs_jnull (t : List Char) : typeIs .jnull t = false := by
  rw [typeIs]
  simp [getField]

/-- C10: the request history maps every message to role assistant when its
sender is bot and to role user otherwise (error-role and system-role
messages included), with the message text as content. -/
theorem historyForApi_roles (msgs : List Message) (i : Nat) (m : Message)
    (hm : msgs[i]? = some m) :
    (historyForApi msgs)[i]? =
      some ⟨if m.sender == Sender.bot then "assistant".data else "user".data, m.text⟩ := by
  rw [historyForApi, List.getElem?_map, hm, Option.map_some']

/-- C10 witness: a history with user, error, system and bot messages maps
the error and system entries to role user and the bot entry to role
assistant. -/
theorem historyForApi_roles_witness :
    (historyForApi [⟨"u".data, .user, "a".data, false, none⟩,
      ⟨"e".data, .error, "b".data, false, none⟩,
      ⟨"s".data, .system, "c".data, false, none⟩,
      ⟨"b".data, .bot, "d".data, false, none⟩])[1]? = some ⟨"user".data, "b".data⟩
    ∧ (historyForApi [⟨"u".data, .user, "a".data, false, none⟩,
      ⟨"e".data, .error, "b".data, false, none⟩,
      ⟨"s".data, .system, "c".data, false, none⟩,
      ⟨"b".data, .bot, "d".data, false, none⟩])[2]? = some ⟨"user".data, "c".data⟩
    ∧ (historyForApi [⟨"u".data, .user, "a".data, false, none⟩,
      ⟨"e".data, .error, "b".data, false, none⟩,
      ⟨"s".data, .system, "c".data, false, none⟩,
      ⟨"b".data, .bot, "d".data, false, none⟩])[3]? = some ⟨"assistant".data, "d".data⟩ :=
  ⟨historyForApi_roles _ 1 ⟨"e".data, .error, "b".data, false, none⟩ rfl,
   historyForApi_roles _ 2 ⟨"s".data, .system, "c".data, false, none⟩ rfl,
   historyForApi_roles _ 3 ⟨"b".data, .bot, "d".data, false, none⟩ rfl⟩

/-- C9: a well-formed record whose type tag is complete leaves the
conversation state exactly unchanged: the dispatcher has no branch for it,
so no message text, role, source list or streaming flag changes. -/
theorem completeLine_noop (botId : List Char) (st : ChatState) (line : List Char)
    (h : CompleteLine line) : applyLine botId st line = .ok st := by
  obtain ⟨hpre, hmatch⟩ := h
  rw [applyLine]
  simp only [hpre, if_true]
  cases hparse : jsonParse (line.drop 6) with
  | none => simp only [hparse] at hmatch
  | some d =>
    simp only [hparse] at hmatch
    cases d with
    | jnull => simp [getField] at hmatch
    | jbool b => simp [getField] at hmatch
    | jnum m e => simp [getField] at hmatch
    | jstr s => simp [getField] at hmatch
    | jarr items => simp [getField] at hmatch
    | jobj fields =>
      have h1 : typeIs (.jobj fields) "source".data = false := by
        rw [typeIs, hmatch]
        decide
      have h2 : typeIs (.jobj fields) "chunk".data = false := by
        rw [typeIs, hmatch]
        decide
      have h3 : typeIs (.jobj fields) "error".data = false := by
        rw [typeIs, hmatch]
        decide
      simp [dispatchData, h1, h2, h3]

/-- C9 witness: a concrete complete record applied to a concrete state. -/
theorem completeLine_noop_witness :
    applyLine "b".data ⟨[], []⟩ "data: \x7b\"type\":\"complete\"\x7d".data = .ok ⟨[], []⟩ :=
  completeLine_noop "b".data ⟨[], []⟩ _ ⟨rfl, rfl⟩

theorem appendTo_nil (botId : List Char) (msgs : List Message) :
    appendTo botId [] msgs = msgs := by
  rw [appendTo]
  have h : ∀ m ∈ msgs,
      (if m.id == botId then { m with text := m.text ++ [] } else m) = id m := by
    intro m _
    by_cases hm : m.id == botId <;> simp [hm, id]
  rw [List.map_congr_left h, List.map_id]

theorem appendTo_append (botId t1 t2 : List Char) (msgs : List Message) :
    appendTo botId t2 (appendTo botId t1 msgs) = appendTo botId (t1 ++ t2) msgs := by
  rw [appendTo, appendTo, appendTo, List.map_map]
  apply List.map_congr_left
  intro m _
  rcases m with ⟨mid, msender, mtext, mstream, msources⟩
  by_cases hm : mid = botId <;> simp [hm, List.append_assoc]

/-- A chunk record with payload p turns the state into the same state
with p appended to the bot message text. -/
theorem applyLine_chunk (botId : List Char) (st : ChatState) (p line : List Char)
    (h : isChunkLine p line = true) :
    applyLine botId st line = .ok ⟨appendTo botId p st.messages, st.sourceList⟩ := by
  rw [isChunkLine, Bool.and_eq_true] at h
  obtain ⟨hpre, hmatch⟩ := h
  cases hparse : jsonParse (line.drop 6) with
  | none => rw [hparse] at hmatch; exact absurd hmatch (by simp)
  | some d =>
    rw [hparse] at hmatch
    rw [Bool.and_eq_true] at hmatch
    obtain ⟨htype, hpay⟩ := hmatch
    cases hpd : payloadOf d with
    | none => rw [hpd] at hpay; exact absurd hpay (by simp)
    | some q =>
      rw [hpd] at hpay
      cases q with
      | jstr s =>
        have hsp : s = p := by simpa using hpay
        subst hsp
        have hgf : getField d "type".data = some (.jstr "chunk".data) :=
          (typeIs_eq_true_iff d _).mp htype
        cases d with
        | jnull => rw [typeIs_jnull] at htype; exact absurd htype (by simp)
        | jbool b => simp [getField] at hgf
        | jnum m e => simp [getField] at hgf
        | jstr s' => simp [getField] at hgf
        | jarr items => simp [getField] at hgf
        | jobj fields =>
          have h1 : typeIs (.jobj fields) "source".data = false := by
            rw [typeIs, hgf]; decide
          have hpt : payloadTruthy (JValue.jobj fields) = !s.isEmpty := by
            rw [payloadTruthy, hpd]
            rfl
          have hpv : payloadVal (JValue.jobj fields) = .jstr s := by
            rw [payloadVal, hpd, Option.getD_some]
          by_cases hs : s.isEmpty
          · have hnil : s = [] := by
              cases s with
              | nil => rfl
              | cons a l => simp at hs
            subst hnil
            simp [applyLine, dispatchData, hpre, hparse, h1, htype, hpt, appendTo_nil]
          · simp [applyLine, dispatchData, hpre, hparse, h1, htype, hpt, hs, hpv, appendTo, jsToString]
      | jnull => exact absurd hpay (by simp)
      | jbool b => exact absurd hpay (by simp)
      | jnum m e => exact absurd hpay (by simp)
      | jarr items => exact absurd hpay (by simp)
      | jobj fields => exact absurd hpay (by simp)

/-- A source record with truthy payload q appends q to the side list and
leaves the message log untouched. -/
theorem applyLine_source (botId : List Char) (st : ChatState) (q : JValue) (line : List Char)
    (h : SourceLine q line) :
    applyLine botId st line = .ok ⟨st.messages, st.sourceList ++ [q]⟩ := by
  obtain ⟨hpre, hmatch⟩ := h
  cases hparse : jsonParse (line.drop 6) with
  | none => rw [hparse] at hmatch; exact hmatch.elim
  | some d =>
    rw [hparse] at hmatch
    obtain ⟨htype, hpd, htr⟩ := hmatch
    have hgf : getField d "type".data = some (.jstr "source".data) :=
      (typeIs_eq_true_iff d _).mp htype
    cases d with
    | jnull => rw [typeIs_jnull] at htype; exact absurd htype (by simp)
    | jbool b => simp [getField] at hgf
    | jnum m e => simp [getField] at hgf
    | jstr s' => simp [getField] at hgf
    | jarr items => simp [getField] at hgf
    | jobj fields =>
      have hpt : payloadTruthy (JValue.jobj fields) = true := by
        rw [payloadTruthy, hpd]
        exact htr
      have hpv : payloadVal (JValue.jobj fields) = q := by
        rw [payloadVal, hpd, Option.getD_some]
      simp [applyLine, dispatchData, hpre, hparse, htype, hpt, hpv]

/-- An error record with non-empty string payload p replaces the bot
message text with p and sets its sender to error; the streaming flag and
everything else stay as they were, and the side list is untouched. -/
theorem applyLine_error (botId : List Char) (st : ChatState) (p line : List Char)
    (h : isErrorLine p line = true) :
    applyLine botId st line = .ok ⟨st.messages.map fun m =>
      if m.id == botId then { m with text := p, sender := .error } else m, st.sourceList⟩ := by
  rw [isErrorLine, Bool.and_eq_true] at h
  obtain ⟨hpre, hmatch⟩ := h
  cases hparse : jsonParse (line.drop 6) with
  | none => rw [hparse] at hmatch; exact absurd hmatch (by simp)
  | some d =>
    rw [hparse] at hmatch
    rw [Bool.and_eq_true] at hmatch
    obtain ⟨htype, hpay⟩ := hmatch
    cases hpd : payloadOf d with
    | none => rw [hpd] at hpay; exact absurd hpay (by simp)
    | some q =>
      rw [hpd] at hpay
      cases q with
      | jstr s =>
        rw [Bool.and_eq_true] at hpay
        obtain ⟨hsp, hne⟩ := hpay
        have hsp' : s = p := by simpa using hsp
        subst hsp'
        have hgf : getField d "type".data = some (.jstr "error".data) :=
          (typeIs_eq_true_iff d _).mp htype
        cases d with
        | jnull => rw [typeIs_jnull] at htype; exact absurd htype (by simp)
        | jbool b => simp [getField] at hgf
        | jnum m e => simp [getField] at hgf
        | jstr s' => simp [getField] at hgf
        | jarr items => simp [getField] at hgf
        | jobj fields =>
          have h1 : typeIs (.jobj fields) "source".data = false := by
            rw [typeIs, hgf]; decide
          have h2 : typeIs (.jobj fields) "chunk".data = false := by
            rw [typeIs, hgf]; decide
          have hpt : payloadTruthy (JValue.jobj fields) = true := by
            rw [payloadTruthy, hpd]
            exact hne
          have hpv : payloadVal (JValue.jobj fields) = .jstr s := by
            rw [payloadVal, hpd, Option.getD_some]
          simp [applyLine, dispatchData, hpre, hparse, h1, h2, htype, hpt, hpv, jsToString]
      | jnull => exact absurd hpay (by simp)
      | jbool b => exact absurd hpay (by simp)
      | jnum m e => exact absurd hpay (by simp)
      | jarr items => exact absurd hpay (by simp)
      | jobj fields => exact absurd hpay (by simp)

/-- The messages after dispatching any single record are a map of the
previous messages by a function that preserves the streaming flag and the
id of every message and fixes every message whose id is not the bot id
(in both the normal and the throwing case). -/
theorem applyLine_messages_shape (botId : List Char) (st : ChatState) (line : List Char) :
    ∃ g : Message → Message,
      (resultState (applyLine botId st line)).messages = st.messages.map g
      ∧ ∀ m, (g m).isStreaming = m.isStreaming ∧ (g m).id = m.id
        ∧ ((m.id == botId) = false → g m = m) := by
  rw [applyLine]
  by_cases hpre : dataMarker.isPrefixOf line
  · simp only [hpre, if_true]
    cases hparse : jsonParse (line.drop 6) with
    | none => exact ⟨id, by simp [resultState], fun m => ⟨rfl, rfl, fun _ => rfl⟩⟩
    | some d =>
      cases d with
      | jnull => exact ⟨id, by simp [resultState], fun m => ⟨rfl, rfl, fun _ => rfl⟩⟩
      | jbool b => exact ⟨id, by simp [resultState, dispatchData, typeIs, getField], fun m => ⟨rfl, rfl, fun _ => rfl⟩⟩
      | jnum mm ee => exact ⟨id, by simp [resultState, dispatchData, typeIs, getField], fun m => ⟨rfl, rfl, fun _ => rfl⟩⟩
      | jstr s => exact ⟨id, by simp [resultState, dispatchData, typeIs, getField], fun m => ⟨rfl, rfl, fun _ => rfl⟩⟩
      | jarr items => exact ⟨id, by simp [resultState, dispatchData, typeIs, getField], fun m => ⟨rfl, rfl, fun _ => rfl⟩⟩
      | jobj fields =>
        show ∃ g : Message → Message,
          (dispatchData botId st (.jobj fields)).messages = st.messages.map g
          ∧ ∀ m, (g m).isStreaming = m.isStreaming ∧ (g m).id = m.id
            ∧ ((m.id == botId) = false → g m = m)
        rw [dispatchData]
        by_cases h1 : (typeIs (.jobj fields) "source".data && payloadTruthy (.jobj fields)) = true
        · rw [if_pos h1]
          exact ⟨id, by simp, fun m => ⟨rfl, rfl, fun _ => rfl⟩⟩
        · rw [if_neg h1]
          by_cases h2 : (typeIs (.jobj fields) "chunk".data && payloadTruthy (.jobj fields)) = true
          · rw [if_pos h2]
            refine ⟨fun m => if m.id == botId then
              { m with text := m.text ++ jsToString (payloadVal (.jobj fields)) } else m,
              rfl, fun m => ?_⟩
            by_cases hm : (m.id == botId) = true
            · simp [hm]
            · simp only [Bool.not_eq_true] at hm
              simp [hm]
          · rw [if_neg h2]
            by_cases h3 : (typeIs (.jobj fields) "error".data && payloadTruthy (.jobj fields)) = true
            · rw [if_pos h3]
              refine ⟨fun m => if m.id == botId then
                { m with text := jsToString (payloadVal (.jobj fields)), sender := .error } else m,
                rfl, fun m => ?_⟩
              by_cases hm : (m.id == botId) = true
              · simp [hm]
              · simp only [Bool.not_eq_true] at hm
                simp [hm]
            · rw [if_neg h3]
              exact ⟨id, by simp, fun m => ⟨rfl, rfl, fun _ => rfl⟩⟩
  · simp only [hpre, if_false]
    exact ⟨id, by simp [resultState], fun m => ⟨rfl, rfl, fun _ => rfl⟩⟩

/-- Dispatching any single record never changes which messages are
streaming: the per-position streaming flags are preserved, in both the
normal and the throwing case. -/
theorem applyLine_isStreaming (botId : List Char) (st : ChatState) (line : List Char) :
    ((resultState (applyLine botId st line)).messages.map fun m => m.isStreaming) =
      st.messages.map fun m => m.isStreaming := by
  obtain ⟨g, hg, hprops⟩ := applyLine_messages_shape botId st line
  rw [hg, List.map_map]
  exact List.map_congr_left fun m _ => (hprops m).1

/-- Dispatching any single record never changes the message ids. -/
theorem applyLine_ids (botId : List Char) (st : ChatState) (line : List Char) :
    ((resultState (applyLine botId st line)).messages.map fun m => m.id) =
      st.messages.map fun m => m.id := by
  obtain ⟨g, hg, hprops⟩ := applyLine_messages_shape botId st line
  rw [hg, List.map_map]
  exact List.map_congr_left fun m _ => (hprops m).2.1

/-- Dispatching any single record keeps every message whose id is not the
bot id exactly as it was. -/
theorem applyLine_frame (botId : List Char) (st : ChatState) (line : List Char)
    (m : Message) (hm : m ∈ st.messages) (hmid : (m.id == botId) = false) :
    m ∈ (resultState (applyLine botId st line)).messages := by
  obtain ⟨g, hg, hprops⟩ := applyLine_messages_shape botId st line
  rw [hg]
  exact List.mem_map.mpr ⟨m, hm, (hprops m).2.2 hmid⟩

/-! ## Lemmas: the record loop -/

theorem runLines_cons (botId : List Char) (st : ChatState) (l : List Char)
    (ls : List (List Char)) :
    runLines botId st (l :: ls) =
      match applyLine botId st l with
      | .ok st1 => runLines botId st1 ls
      | .error st1 => .error st1 := by
  rw [runLines, List.foldlM_cons]
  cases applyLine botId st l <;> rfl

theorem runLines_append (botId : List Char) (st : ChatState) (l1 l2 : List (List Char)) :
    runLines botId st (l1 ++ l2) =
      match runLines botId st l1 with
      | .ok st1 => runLines botId st1 l2
      | .error st1 => .error st1 := by
  induction l1 generalizing st with
  | nil => rw [List.nil_append]; rfl
  | cons l ls ih =>
    rw [List.cons_append, runLines_cons, runLines_cons]
    cases applyLine botId st l with
    | ok st1 => exact ih st1
    | error st1 => rfl

/-- Running a stream of chunk and source events from any state appends the
concatenated chunk payloads to the bot message and the source payloads to
the side list, in order, and succeeds. -/
theorem runLines_events (botId : List Char) (es : List ChatEvent)
    (lines : List (List Char)) (h : List.Forall₂ lineMatches es lines)
    (st : ChatState) :
    runLines botId st lines =
      .ok ⟨appendTo botId (chunkPayloads es).flatten st.messages,
        st.sourceList ++ sourcePayloads es⟩ := by
  induction h generalizing st with
  | nil =>
    rw [runLines, List.foldlM_nil, chunkPayloads, sourcePayloads]
    simp only [List.filterMap_nil, List.flatten_nil, List.append_nil, appendTo_nil]
    rfl
  | @cons e line es' lines' hel _ ih =>
    rw [runLines_cons]
    cases e with
    | chunkEv p =>
      rw [applyLine_chunk botId st p line hel]
      show runLines botId ⟨appendTo botId p st.messages, st.sourceList⟩ lines' = _
      rw [ih]
      simp only [chunkPayloads, sourcePayloads, List.filterMap_cons, List.flatten_cons]
      rw [show (appendTo botId ((List.filterMap (fun e => match e with
        | ChatEvent.chunkEv p => some p
        | x => none) es').flatten) (appendTo botId p st.messages)) =
        appendTo botId (p ++ (List.filterMap (fun e => match e with
        | ChatEvent.chunkEv p => some p
        | x => none) es').flatten) st.messages from appendTo_append botId p _ st.messages]
    | sourceEv q =>
      rw [applyLine_source botId st q line hel]
      show runLines botId ⟨st.messages, st.sourceList ++ [q]⟩ lines' = _
      rw [ih]
      simp only [chunkPayloads, sourcePayloads, List.filterMap_cons]
      rw [List.append_assoc, List.singleton_append]

theorem runLines_isStreaming (botId : List Char) (st : ChatState)
    (lines : List (List Char)) :
    ((resultState (runLines botId st lines)).messages.map fun m => m.isStreaming) =
      st.messages.map fun m => m.isStreaming := by
  induction lines generalizing st with
  | nil => rw [runLines, List.foldlM_nil]; rfl
  | cons l ls ih =>
    rw [runLines_cons]
    cases hl : applyLine botId st l with
    | ok st1 =>
      rw [ih st1]
      have := applyLine_isStreaming botId st l
      rw [hl] at this
      exact this
    | error st1 =>
      have := applyLine_isStreaming botId st l
      rw [hl] at this
      exact this

theorem runLines_frame (botId : List Char) (st : ChatState) (lines : List (List Char))
    (m : Message) (hm : m ∈ st.messages) (hmid : (m.id == botId) = false) :
    m ∈ (resultState (runLines botId st lines)).messages := by
  induction lines generalizing st with
  | nil => rw [runLines, List.foldlM_nil]; exact hm
  | cons l ls ih =>
    rw [runLines_cons]
    cases hl : applyLine botId st l with
    | ok st1 =>
      refine ih st1 ?_
      have := applyLine_frame botId st l m hm hmid
      rw [hl] at this
      exact this
    | error st1 =>
      have := applyLine_frame botId st l m hm hmid
      rw [hl] at this
      exact this

/-- Messages whose id is not the bot id survive the source flush, the
catch handler and the finally clause unchanged. -/
theorem mem_clearStreaming (botId : List Char) (msgs : List Message) (m : Message)
    (hm : m ∈ msgs) (hmid : (m.id == botId) = false) : m ∈ clearStreaming botId msgs :=
  List.mem_map.mpr ⟨m, hm, by simp [hmid]⟩

theorem mem_catchMessages (botId : List Char) (msgs : List Message) (m : Message)
    (hm : m ∈ msgs) (hmid : (m.id == botId) = false) : m ∈ catchMessages botId msgs :=
  List.mem_map.mpr ⟨m, hm, by simp [hmid]⟩

theorem mem_flushSources (botId sysId : List Char) (st : ChatState) (m : Message)
    (hm : m ∈ st.messages) : m ∈ flushSources botId sysId st := by
  rw [flushSources]
  by_cases he : st.sourceList.isEmpty
  · rw [if_pos he]; exact hm
  · rw [if_neg he]
    cases hidx : st.messages.findIdx? fun mm => mm.id == botId with
    | none => exact hm
    | some i =>
      have hm' : m ∈ st.messages.take i ++ st.messages.drop i := by
        rw [List.take_append_drop]
        exact hm
      rcases List.mem_append.mp hm' with h | h
      · exact List.mem_append.mpr (Or.inl h)
      · exact List.mem_append.mpr (Or.inr (List.mem_cons_of_mem _ h))

/-- Every message of the starting log whose id is not one of the new
message ids is still present, unchanged, after a whole handleSubmit run at
record granularity. -/
theorem mem_handleSubmitLines (userId botId sysId input : List Char)
    (msgs0 : List Message) (lines : List (List Char)) (m : Message)
    (hm : m ∈ msgs0) (hmid : (m.id == botId) = false) :
    m ∈ handleSubmitLines userId botId sysId input msgs0 lines := by
  rw [handleSubmitLines, handleStreamLines]
  have hm1 : m ∈ (initialState userId botId input msgs0).messages :=
    List.mem_append.mpr (Or.inl hm)
  cases hrun : runLines botId (initialState userId botId input msgs0) lines with
  | ok st =>
    refine mem_clearStreaming botId _ m ?_ hmid
    refine mem_flushSources botId sysId st m ?_
    have := runLines_frame botId _ lines m hm1 hmid
    rw [hrun] at this
    exact this
  | error st =>
    refine mem_clearStreaming botId _ m ?_ hmid
    refine mem_catchMessages botId _ m ?_ hmid
    have := runLines_frame botId _ lines m hm1 hmid
    rw [hrun] at this
    exact this

theorem idFree_spec (i : List Char) (msgs : List Message) (h : idFree i msgs = true)
    (m : Message) (hm : m ∈ msgs) : (m.id == i) = false := by
  rw [idFree, List.all_eq_true] at h
  have := h m hm
  simpa using this

theorem appendTo_of_idFree (botId t : List Char) (msgs : List Message)
    (h : idFree botId msgs = true) : appendTo botId t msgs = msgs := by
  rw [appendTo]
  have hc : ∀ m ∈ msgs,
      (if m.id == botId then { m with text := m.text ++ t } else m) = id m := by
    intro m hm
    rw [if_neg (by rw [idFree_spec botId msgs h m hm]; exact Bool.false_ne_true)]
    rfl
  rw [List.map_congr_left hc, List.map_id]

theorem clearStreaming_append (botId : List Char) (a b : List Message) :
    clearStreaming botId (a ++ b) = clearStreaming botId a ++ clearStreaming botId b := by
  rw [clearStreaming, clearStreaming, clearStreaming, List.map_append]

theorem clearStreaming_of_idFree (botId : List Char) (msgs : List Message)
    (h : idFree botId msgs = true) : clearStreaming botId msgs = msgs := by
  rw [clearStreaming]
  have hc : ∀ m ∈ msgs,
      (if m.id == botId then { m with isStreaming := false } else m) = id m := by
    intro m hm
    rw [if_neg (by rw [idFree_spec botId msgs h m hm]; exact Bool.false_ne_true)]
    rfl
  rw [List.map_congr_left hc, List.map_id]

theorem appendTo_initial (botId userId input t : List Char) (msgs0 : List Message)
    (h0 : idFree botId msgs0 = true) (hu : (userId == botId) = false) :
    appendTo botId t (msgs0 ++ [mkUserMessage userId input, mkBotPlaceholder botId]) =
      msgs0 ++ [mkUserMessage userId input, ⟨botId, .bot, t, true, none⟩] := by
  rw [appendTo, List.map_append]
  have hc : ∀ m ∈ msgs0,
      (if m.id == botId then { m with text := m.text ++ t } else m) = id m := by
    intro m hm
    rw [if_neg (by rw [idFree_spec botId msgs0 h0 m hm]; exact Bool.false_ne_true)]
    rfl
  rw [List.map_congr_left hc, List.map_id]
  congr 1
  have hu' : ¬ userId = botId := by simpa using hu
  simp [mkUserMessage, mkBotPlaceholder, hu']

theorem findIdx?_bot (botId : List Char) (msgs0 : List Message)
    (h0 : idFree botId msgs0 = true) (u : Message) (hu : (u.id == botId) = false)
    (b : Message) (hb : (b.id == botId) = true) (i : Nat) :
    List.findIdx? (fun m => m.id == botId) (msgs0 ++ [u, b]) i =
      some (i + msgs0.length + 1) := by
  induction msgs0 generalizing i with
  | nil =>
    rw [List.nil_append, List.findIdx?_cons, if_neg (by rw [hu]; exact Bool.false_ne_true),
      List.findIdx?_cons, if_pos hb]
    simp
  | cons x xs ih =>
    have hx : (x.id == botId) = false := idFree_spec botId _ h0 x (List.mem_cons_self x xs)
    have hxs : idFree botId xs = true := by
      rw [idFree, List.all_eq_true]
      intro m hm
      rw [idFree_spec botId _ h0 m (List.mem_cons_of_mem x hm)]
      rfl
    rw [List.cons_append, List.findIdx?_cons,
      if_neg (by rw [hx]; exact Bool.false_ne_true), ih hxs]
    congr 1
    simp only [List.length_cons]
    omega

theorem flushSources_found (botId sysId : List Char) (st : ChatState) (i : Nat)
    (hne : st.sourceList.isEmpty = false)
    (hidx : st.messages.findIdx? (fun m => m.id == botId) = some i) :
    flushSources botId sysId st =
      st.messages.take i ++ mkSystemMessage sysId st.sourceList :: st.messages.drop i := by
  rw [flushSources, if_neg (by rw [hne]; exact Bool.false_ne_true), hidx]

/-- A handleSubmit run over any stream of chunk and source records: the
prior log and the user message are preserved; the bot message ends with
the concatenated chunk payloads, not streaming; when at least one source
arrived, exactly one synthetic system message carrying all source payloads
is inserted immediately before the bot message, and otherwise no message
is inserted. -/
theorem handleSubmitLines_events (userId botId sysId input : List Char)
    (msgs0 : List Message) (es : List ChatEvent) (lines : List (List Char))
    (hfor : List.Forall₂ lineMatches es lines)
    (h0 : idFree botId msgs0 = true)
    (hu : (userId == botId) = false)
    (hsys : (sysId == botId) = false) :
    handleSubmitLines userId botId sysId input msgs0 lines =
      msgs0 ++ mkUserMessage userId input ::
        (if (sourcePayloads es).isEmpty then
          [⟨botId, .bot, (chunkPayloads es).flatten, false, none⟩]
        else
          [mkSystemMessage sysId (sourcePayloads es),
           ⟨botId, .bot, (chunkPayloads es).flatten, false, none⟩]) := by
  rw [handleSubmitLines, handleStreamLines, runLines_events botId es lines hfor]
  show clearStreaming botId (flushSources botId sysId
    ⟨appendTo botId (chunkPayloads es).flatten
      (initialState userId botId input msgs0).messages,
     (initialState userId botId input msgs0).sourceList ++ sourcePayloads es⟩) = _
  have hmsgs : appendTo botId (chunkPayloads es).flatten
      (initialState userId botId input msgs0).messages =
      msgs0 ++ [mkUserMessage userId input,
        ⟨botId, .bot, (chunkPayloads es).flatten, true, none⟩] :=
    appendTo_initial botId userId input _ msgs0 h0 hu
  rw [hmsgs]
  rw [show (initialState userId botId input msgs0).sourceList ++ sourcePayloads es =
    sourcePayloads es from List.nil_append _]
  have hu' : ¬ userId = botId := by simpa using hu
  have hsys' : ¬ sysId = botId := by simpa using hsys
  by_cases hsrc : (sourcePayloads es).isEmpty
  · rw [flushSources, if_pos hsrc, if_pos hsrc]
    rw [clearStreaming_append, clearStreaming_of_idFree botId msgs0 h0]
    congr 1
    simp [clearStreaming, mkUserMessage, hu']
  · have hsrcf : (sourcePayloads es).isEmpty = false := by
      cases h : (sourcePayloads es).isEmpty with
      | false => rfl
      | true => exact absurd h hsrc
    have hfind : List.findIdx? (fun m => m.id == botId)
        (msgs0 ++ [mkUserMessage userId input,
          ⟨botId, .bot, (chunkPayloads es).flatten, true, none⟩]) =
        some (msgs0.length + 1) := by
      have := findIdx?_bot botId msgs0 h0 (mkUserMessage userId input)
        (by simpa [mkUserMessage] using hu)
        ⟨botId, .bot, (chunkPayloads es).flatten, true, none⟩ (by simp) 0
      simpa using this
    rw [flushSources_found botId sysId _ (msgs0.length + 1) hsrcf hfind]
    rw [if_neg hsrc]
    have hassoc : msgs0 ++ [mkUserMessage userId input,
        ⟨botId, .bot, (chunkPayloads es).flatten, true, none⟩] =
        (msgs0 ++ [mkUserMessage userId input]) ++
          [(⟨botId, .bot, (chunkPayloads es).flatten, true, none⟩ : Message)] := by
      simp
    have hlen : (msgs0 ++ [mkUserMessage userId input]).length = msgs0.length + 1 := by
      simp
    rw [show List.take (msgs0.length + 1) (msgs0 ++ [mkUserMessage userId input,
        ⟨botId, .bot, (chunkPayloads es).flatten, true, none⟩]) =
        msgs0 ++ [mkUserMessage userId input] from by rw [hassoc, List.take_left' hlen]]
    rw [show List.drop (msgs0.length + 1) (msgs0 ++ [mkUserMessage userId input,
        ⟨botId, .bot, (chunkPayloads es).flatten, true, none⟩]) =
        [(⟨botId, .bot, (chunkPayloads es).flatten, true, none⟩ : Message)] from by
      rw [hassoc, List.drop_left' hlen]]
    rw [clearStreaming_append, clearStreaming_append, clearStreaming_of_idFree botId msgs0 h0]
    simp [clearStreaming, mkUserMessage, mkSystemMessage, hu', hsys']

/-! ## Claims about streaming behaviour -/

/-- C7: every source event only appends its payload to the side list
(never touching the message log), and when the stream completes with a
non-empty side list the accumulated sources become exactly one synthetic
system-role message inserted immediately before the bot message — never
one entry per event. -/
theorem source_events_flushed_once (userId botId sysId input : List Char)
    (msgs0 : List Message) (es : List ChatEvent) (lines : List (List Char))
    (hfor : List.Forall₂ lineMatches es lines)
    (h0 : idFree botId msgs0 = true)
    (hu : (userId == botId) = false)
    (hsys : (sysId == botId) = false)
    (hne : (sourcePayloads es).isEmpty = false) :
    (∀ (st : ChatState) (q : JValue) (line : List Char), SourceLine q line →
      applyLine botId st line = .ok ⟨st.messages, st.sourceList ++ [q]⟩)
    ∧ handleSubmitLines userId botId sysId input msgs0 lines =
        msgs0 ++ [mkUserMessage userId input,
          mkSystemMessage sysId (sourcePayloads es),
          ⟨botId, .bot, (chunkPayloads es).flatten, false, none⟩] := by
  refine ⟨fun st q line h => applyLine_source botId st q line h, ?_⟩
  rw [handleSubmitLines_events userId botId sysId input msgs0 es lines hfor h0 hu hsys]
  rw [if_neg (by rw [hne]; exact Bool.false_ne_true)]

/-- C7 witness: one source event and one chunk event; the source payload is
flushed as a single system message placed before the bot message. -/
theorem source_events_flushed_once_witness :
    handleSubmitLines "u".data "b".data "s".data "q".data []
      ["data: \x7b\"type\":\"source\",\"payload\":\x7b\"url\":\"x\"\x7d\x7d".data,
       "data: \x7b\"type\":\"chunk\",\"payload\":\"A\"\x7d".data] =
      [mkUserMessage "u".data "q".data,
       mkSystemMessage "s".data [.jobj [("url".data, .jstr "x".data)]],
       ⟨"b".data, .bot, "A".data, false, none⟩] := by
  have h := source_events_flushed_once "u".data "b".data "s".data "q".data []
    [.sourceEv (.jobj [("url".data, .jstr "x".data)]), .chunkEv "A".data]
    ["data: \x7b\"type\":\"source\",\"payload\":\x7b\"url\":\"x\"\x7d\x7d".data,
     "data: \x7b\"type\":\"chunk\",\"payload\":\"A\"\x7d".data]
    (List.Forall₂.cons ⟨rfl, rfl, rfl, rfl⟩ (List.Forall₂.cons rfl List.Forall₂.nil))
    rfl rfl rfl rfl
  exact h.2

/-- C3 counterexample: after an error record with payload E, a following
chunk record with payload X is still applied (the final text is EX, not
E), and right after the error record the streaming flag of the bot message
is still set.  So consumption does not stop at the error record and the
flag is not cleared by it. -/
theorem error_record_not_terminal :
    handleSubmitLines "u".data "b".data "s".data "q".data []
      ["data: \x7b\"type\":\"error\",\"payload\":\"E\"\x7d".data,
       "data: \x7b\"type\":\"chunk\",\"payload\":\"X\"\x7d".data] =
      [mkUserMessage "u".data "q".data, ⟨"b".data, .error, "EX".data, false, none⟩]
    ∧ ((resultState (runLines "b".data
        (initialState "u".data "b".data "q".data [])
        ["data: \x7b\"type\":\"error\",\"payload\":\"E\"\x7d".data])).messages.map
          fun m => m.isStreaming) = [false, true] :=
  ⟨rfl, rfl⟩

/-- C3 (amended): an error record with non-empty payload replaces the
streaming message text with the payload and sets its role to error, but it
does not clear the streaming flag (all flags are unchanged; the flag is
cleared only when the whole stream ends) and it does not stop consumption:
the dispatcher succeeds and the remaining records are processed from the
updated state. -/
theorem error_record_replaces_and_continues (botId : List Char) (st : ChatState)
    (p line : List Char) (h : isErrorLine p line = true) :
    applyLine botId st line = .ok ⟨st.messages.map fun m =>
        if m.id == botId then { m with text := p, sender := .error } else m,
      st.sourceList⟩
    ∧ ((st.messages.map fun m =>
        if m.id == botId then { m with text := p, sender := .error } else m).map
          fun m => m.isStreaming) = (st.messages.map fun m => m.isStreaming)
    ∧ ∀ rest, runLines botId st (line :: rest) =
        runLines botId ⟨st.messages.map fun m =>
          if m.id == botId then { m with text := p, sender := .error } else m,
          st.sourceList⟩ rest := by
  refine ⟨applyLine_error botId st p line h, ?_, fun rest => ?_⟩
  · rw [List.map_map]
    apply List.map_congr_left
    intro m _
    by_cases hm : m.id = botId <;> simp [hm]
  · rw [runLines_cons, applyLine_error botId st p line h]

/-- C3 amended witness: a concrete error record followed by one chunk
record, run through the amended statement. -/
theorem error_record_replaces_and_continues_witness :
    applyLine "b".data ⟨[mkBotPlaceholder "b".data], []⟩
      "data: \x7b\"type\":\"error\",\"payload\":\"E\"\x7d".data =
      .ok ⟨[⟨"b".data, .error, "E".data, true, none⟩], []⟩ := by
  have h := error_record_replaces_and_continues "b".data ⟨[mkBotPlaceholder "b".data], []⟩
    "E".data "data: \x7b\"type\":\"error\",\"payload\":\"E\"\x7d".data rfl
  exact h.1

/-- C2 counterexample: with a valid chunk A, then a malformed record, then
a valid chunk B, the malformed record is not ignored: the final bot-slot
message carries the fixed client error text with role error, chunk B is
never applied, and no message ever has text AB. -/
theorem malformed_record_not_ignored :
    handleSubmitLines "u".data "b".data "s".data "q".data []
      ["data: \x7b\"type\":\"chunk\",\"payload\":\"A\"\x7d".data,
       "data: \x7bnot valid json".data,
       "data: \x7b\"type\":\"chunk\",\"payload\":\"B\"\x7d".data] =
      [mkUserMessage "u".data "q".data, ⟨"b".data, .error, errorMessage, false, none⟩]
    ∧ ((handleSubmitLines "u".data "b".data "s".data "q".data []
      ["data: \x7b\"type\":\"chunk\",\"payload\":\"A\"\x7d".data,
       "data: \x7bnot valid json".data,
       "data: \x7b\"type\":\"chunk\",\"payload\":\"B\"\x7d".data]).all
        fun m => !(m.text == "AB".data)) = true :=
  ⟨rfl, rfl⟩

/-- C2 (amended): a record that is not valid JSON after the data marker is
not ignored: JSON.parse throws, so the loop aborts with the state reached
so far, records after the malformed one are never applied, and the catch
handler replaces the streaming message with the fixed client error text,
role error, flag cleared; every message other than the streaming one is
preserved unchanged in the final log. -/
theorem malformed_record_aborts (userId botId sysId input : List Char)
    (msgs0 : List Message) (good : List (List Char)) (bad : List Char)
    (rest : List (List Char)) (stG : ChatState)
    (hgood : runLines botId (initialState userId botId input msgs0) good = .ok stG)
    (hbadpre : dataMarker.isPrefixOf bad = true)
    (hbadparse : jsonParse (bad.drop 6) = none) :
    handleSubmitLines userId botId sysId input msgs0 (good ++ bad :: rest) =
      clearStreaming botId (catchMessages botId stG.messages)
    ∧ ∀ m ∈ stG.messages, (m.id == botId) = false →
        m ∈ handleSubmitLines userId botId sysId input msgs0 (good ++ bad :: rest) := by
  have habort : runLines botId (initialState userId botId input msgs0)
      (good ++ bad :: rest) = .error stG := by
    rw [runLines_append, hgood]
    show runLines botId stG (bad :: rest) = _
    rw [runLines_cons]
    have hbad : applyLine botId stG bad = .error stG := by
      rw [applyLine, if_pos hbadpre, hbadparse]
    rw [hbad]
  constructor
  · rw [handleSubmitLines, handleStreamLines, habort]
  · intro m hm hmid
    rw [handleSubmitLines, handleStreamLines, habort]
    exact mem_clearStreaming botId _ m (mem_catchMessages botId _ m hm hmid) hmid

/-- C2 amended witness: chunk A, then a malformed record, then chunk B,
with the state after the good prefix computed explicitly. -/
theorem malformed_record_aborts_witness :
    handleSubmitLines "u".data "b".data "s".data "q".data []
      (["data: \x7b\"type\":\"chunk\",\"payload\":\"A\"\x7d".data] ++
        "data: \x7bnot valid json".data ::
        ["data: \x7b\"type\":\"chunk\",\"payload\":\"B\"\x7d".data]) =
      clearStreaming "b".data (catchMessages "b".data
        [mkUserMessage "u".data "q".data, ⟨"b".data, .bot, "A".data, true, none⟩]) := by
  have h := malformed_record_aborts "u".data "b".data "s".data "q".data []
    ["data: \x7b\"type\":\"chunk\",\"payload\":\"A\"\x7d".data]
    "data: \x7bnot valid json".data
    ["data: \x7b\"type\":\"chunk\",\"payload\":\"B\"\x7d".data]
    ⟨[mkUserMessage "u".data "q".data, ⟨"b".data, .bot, "A".data, true, none⟩], []⟩
    rfl rfl rfl
  exact h.1

/-- C6: the read loop has no cancellation or teardown path: nothing in the
component releases the reader, so the loop keeps applying chunk records
past any point; with five chunks, the payloads of chunks three to five are
still applied (the final text is the concatenation of all five payloads,
which differs from that of the first two). -/
theorem no_cancellation_chunks_still_applied :
    handleSubmitLines "u".data "b".data "s".data "q".data []
      ["data: \x7b\"type\":\"chunk\",\"payload\":\"c1\"\x7d".data,
       "data: \x7b\"type\":\"chunk\",\"payload\":\"c2\"\x7d".data,
       "data: \x7b\"type\":\"chunk\",\"payload\":\"c3\"\x7d".data,
       "data: \x7b\"type\":\"chunk\",\"payload\":\"c4\"\x7d".data,
       "data: \x7b\"type\":\"chunk\",\"payload\":\"c5\"\x7d".data] =
      [mkUserMessage "u".data "q".data,
       ⟨"b".data, .bot, "c1c2c3c4c5".data, false, none⟩]
    ∧ handleSubmitLines "u".data "b".data "s".data "q".data []
      ["data: \x7b\"type\":\"chunk\",\"payload\":\"c1\"\x7d".data,
       "data: \x7b\"type\":\"chunk\",\"payload\":\"c2\"\x7d".data] =
      [mkUserMessage "u".data "q".data,
       ⟨"b".data, .bot, "c1c2".data, false, none⟩]
    ∧ ¬("c1c2c3c4c5".data = "c1c2".data) :=
  ⟨rfl, rfl, by decide⟩

/-! ## Lemmas: streaming-flag bookkeeping -/

theorem applyLine_idFlags (botId : List Char) (st : ChatState) (line : List Char) :
    ((resultState (applyLine botId st line)).messages.map fun m => (m.id, m.isStreaming)) =
      st.messages.map fun m => (m.id, m.isStreaming) := by
  obtain ⟨g, hg, hprops⟩ := applyLine_messages_shape botId st line
  rw [hg, List.map_map]
  refine List.map_congr_left fun m _ => ?_
  show ((g m).id, (g m).isStreaming) = (m.id, m.isStreaming)
  rw [(hprops m).2.1, (hprops m).1]

theorem runLines_idFlags (botId : List Char) (st : ChatState) (lines : List (List Char)) :
    ((resultState (runLines botId st lines)).messages.map fun m => (m.id, m.isStreaming)) =
      st.messages.map fun m => (m.id, m.isStreaming) := by
  induction lines generalizing st with
  | nil => rw [runLines, List.foldlM_nil]; rfl
  | cons l ls ih =>
    rw [runLines_cons]
    cases hl : applyLine botId st l with
    | ok st1 =>
      rw [ih st1]
      have := applyLine_idFlags botId st l
      rw [hl] at this
      exact this
    | error st1 =>
      have := applyLine_idFlags botId st l
      rw [hl] at this
      exact this

theorem runLines_flag_false (botId : List Char) (st : ChatState) (lines : List (List Char))
    (hstart : ∀ m' ∈ st.messages, (m'.id == botId) = false → m'.isStreaming = false)
    (m : Message) (hm : m ∈ (resultState (runLines botId st lines)).messages)
    (hmid : (m.id == botId) = false) : m.isStreaming = false := by
  have hpair : (m.id, m.isStreaming) ∈ st.messages.map fun m => (m.id, m.isStreaming) := by
    rw [← runLines_idFlags botId st lines]
    exact List.mem_map_of_mem _ hm
  rcases List.mem_map.mp hpair with ⟨m', hm', heq⟩
  rw [Prod.mk.injEq] at heq
  obtain ⟨hid, hflag⟩ := heq
  rw [← hflag]
  exact hstart m' hm' (by rw [hid]; exact hmid)

theorem mem_flushSources_inv (botId sysId : List Char) (st : ChatState) (x : Message)
    (hx : x ∈ flushSources botId sysId st) :
    x = mkSystemMessage sysId st.sourceList ∨ x ∈ st.messages := by
  rw [flushSources] at hx
  by_cases he : st.sourceList.isEmpty
  · rw [if_pos he] at hx
    exact Or.inr hx
  · rw [if_neg he] at hx
    rcases hidx : st.messages.findIdx? fun mm => mm.id == botId with _ | i
    · rw [hidx] at hx
      exact Or.inr hx
    · rw [hidx] at hx
      have hx' : x ∈ st.messages.take i ++
          mkSystemMessage sysId st.sourceList :: st.messages.drop i := hx
      rcases List.mem_append.mp hx' with h | h
      · exact Or.inr (List.take_subset i st.messages h)
      · rcases List.mem_cons.mp h with h | h
        · exact Or.inl h
        · exact Or.inr (List.drop_subset i st.messages h)

theorem streamingCount_congr (a b : List Message)
    (h : (a.map fun m => m.isStreaming) = b.map fun m => m.isStreaming) :
    streamingCount a = streamingCount b := by
  induction a generalizing b with
  | nil =>
    have hb : b = [] := List.map_eq_nil_iff.mp h.symm
    rw [hb]
  | cons m t ih =>
    cases b with
    | nil => simp at h
    | cons m' t' =>
      simp only [List.map_cons, List.cons.injEq] at h
      obtain ⟨h1, h2⟩ := h
      have ht := ih t' h2
      rw [streamingCount, streamingCount] at ht ⊢
      rw [List.filter_cons, List.filter_cons, h1]
      cases hf : m'.isStreaming <;> simp [hf, ht]

theorem streamingCount_append (a b : List Message) :
    streamingCount (a ++ b) = streamingCount a + streamingCount b := by
  rw [streamingCount, streamingCount, streamingCount, List.filter_append, List.length_append]

theorem streamingCount_zero_of_all (msgs : List Message)
    (h : (msgs.all fun m => !m.isStreaming) = true) : streamingCount msgs = 0 := by
  rw [streamingCount, List.length_eq_zero, List.filter_eq_nil_iff]
  intro m hm
  have := List.all_eq_true.mp h m hm
  simpa using this

theorem initial_flags (userId botId input : List Char) (msgs0 : List Message)
    (h0 : (msgs0.all fun m => !m.isStreaming) = true) :
    ∀ m' ∈ (initialState userId botId input msgs0).messages,
      (m'.id == botId) = false → m'.isStreaming = false := by
  intro m' hm' hb
  rw [initialState] at hm'
  rcases List.mem_append.mp hm' with h | h
  · have := List.all_eq_true.mp h0 m' h
    simpa using this
  · rcases List.mem_cons.mp h with h | h
    · rw [h]
      rfl
    · rcases List.mem_cons.mp h with h | h
      · rw [h] at hb
        rw [mkBotPlaceholder] at hb
        simp at hb
      · simp at h

/-- C8: the streaming flag lifecycle.  At every point of the consumption
loop exactly one message (the placeholder the run streams into) has the
streaming flag set, provided no message was streaming beforehand; when the
run finishes — normally, after a server error record, or through the catch
handler — no message is left streaming (the flag was cleared exactly
once, by the finally clause or the catch handler); and a later run with a
fresh bot id leaves every message of the finished conversation, in
particular the cleared one, untouched, so the flag is never re-set for
that message id. -/
theorem streaming_flag_lifecycle (userId botId sysId input : List Char)
    (msgs0 : List Message) (lines : List (List Char))
    (h0 : (msgs0.all fun m => !m.isStreaming) = true) :
    streamingCount (resultState (runLines botId
        (initialState userId botId input msgs0) lines)).messages = 1
    ∧ ((handleSubmitLines userId botId sysId input msgs0 lines).all
        fun m => !m.isStreaming) = true
    ∧ ∀ (userId2 botId2 sysId2 input2 : List Char) (lines2 : List (List Char))
        (m : Message), m ∈ handleSubmitLines userId botId sysId input msgs0 lines →
        (m.id == botId2) = false →
        m ∈ handleSubmitLines userId2 botId2 sysId2 input2
          (handleSubmitLines userId botId sysId input msgs0 lines) lines2 := by
  refine ⟨?_, ?_, ?_⟩
  · rw [streamingCount_congr _ _ (runLines_isStreaming botId _ lines)]
    rw [initialState, streamingCount_append, streamingCount_zero_of_all msgs0 h0]
    rfl
  · rw [List.all_eq_true]
    intro x hx
    rw [handleSubmitLines, handleStreamLines] at hx
    have hstart := initial_flags userId botId input msgs0 h0
    cases hrun : runLines botId (initialState userId botId input msgs0) lines with
    | ok st1 =>
      rw [hrun] at hx
      rcases List.mem_map.mp hx with ⟨y, hy, hxy⟩
      by_cases hyb : (y.id == botId) = true
      · rw [if_pos hyb] at hxy
        rw [← hxy]
        rfl
      · simp only [Bool.not_eq_true] at hyb
        rw [if_neg (by rw [hyb]; exact Bool.false_ne_true)] at hxy
        rcases mem_flushSources_inv botId sysId st1 y hy with h | h
        · rw [← hxy, h]
          rfl
        · have : y.isStreaming = false := by
            refine runLines_flag_false botId _ lines hstart y ?_ hyb
            rw [hrun]
            exact h
          rw [← hxy, this]
          rfl
    | error st1 =>
      rw [hrun] at hx
      rcases List.mem_map.mp hx with ⟨z, hz, hxz⟩
      rcases List.mem_map.mp hz with ⟨y, hy, hzy⟩
      by_cases hyb : (y.id == botId) = true
      · rw [if_pos hyb] at hzy
        have hzb : (z.id == botId) = true := by
          rw [← hzy]
          exact hyb
        rw [if_pos hzb] at hxz
        rw [← hxz]
        rw [← hzy]
        rfl
      · simp only [Bool.not_eq_true] at hyb
        rw [if_neg (by rw [hyb]; exact Bool.false_ne_true)] at hzy
        rw [← hzy] at hxz
        by_cases hzb : (y.id == botId) = true
        · exact absurd hzb (by rw [hyb]; exact Bool.false_ne_true)
        · rw [if_neg (by rw [hyb]; exact Bool.false_ne_true)] at hxz
          have : y.isStreaming = false := by
            refine runLines_flag_false botId _ lines hstart y ?_ hyb
            rw [hrun]
            exact hy
          rw [← hxz, this]
          rfl
  · intro userId2 botId2 sysId2 input2 lines2 m hm hmid
    exact mem_handleSubmitLines userId2 botId2 sysId2 input2 _ lines2 m hm hmid

/-- C8 witness: a run over one chunk record from an empty log: during the
run exactly one message is streaming, afterwards none is, and the finished
messages survive a later run untouched. -/
theorem streaming_flag_lifecycle_witness :
    streamingCount (resultState (runLines "b".data
        (initialState "u".data "b".data "q".data [])
        ["data: \x7b\"type\":\"chunk\",\"payload\":\"A\"\x7d".data])).messages = 1
    ∧ ((handleSubmitLines "u".data "b".data "s".data "q".data []
        ["data: \x7b\"type\":\"chunk\",\"payload\":\"A\"\x7d".data]).all
        fun m => !m.isStreaming) = true
    ∧ mkUserMessage "u".data "q".data ∈
        handleSubmitLines "u2".data "b2".data "s2".data "q2".data
          (handleSubmitLines "u".data "b".data "s".data "q".data []
            ["data: \x7b\"type\":\"chunk\",\"payload\":\"A\"\x7d".data]) [] := by
  have h := streaming_flag_lifecycle "u".data "b".data "s".data "q".data []
    ["data: \x7b\"type\":\"chunk\",\"payload\":\"A\"\x7d".data] rfl
  refine ⟨h.1, h.2.1, ?_⟩
  refine h.2.2 "u2".data "b2".data "s2".data "q2".data [] (mkUserMessage "u".data "q".data)
    ?_ rfl
  rw [show handleSubmitLines "u".data "b".data "s".data "q".data []
    ["data: \x7b\"type\":\"chunk\",\"payload\":\"A\"\x7d".data] =
    [mkUserMessage "u".data "q".data, ⟨"b".data, .bot, "A".data, false, none⟩] from rfl]
  exact List.mem_cons_self _ _

/-! ## Lemmas: incremental UTF-8 decoding -/

theorem char_toNat_lt (c : Char) : c.toNat < 0x110000 := by
  have h := c.valid
  have he : c.toNat = c.val.toNat := rfl
  rcases h with h | h
  · rw [he]; omega
  · rw [he]; omega

theorem char_not_surrogate (c : Char) : ¬(0xD800 ≤ c.toNat ∧ c.toNat < 0xE000) := by
  have h := c.valid
  have he : c.toNat = c.val.toNat := rfl
  rcases h with h | h
  · rw [he]; omega
  · rw [he]; omega

theorem splitConts_eq (n : Nat) (bs : List Nat) :
    (splitConts n bs).1 ++ (splitConts n bs).2 = bs := by
  induction n generalizing bs with
  | zero => rfl
  | succ n ih =>
    cases bs with
    | nil => rfl
    | cons b bs =>
      rw [splitConts]
      by_cases hc : isCont b
      · simp only [hc, if_true]
        have := ih bs
        rcases hsp : splitConts n bs with ⟨cs, r⟩
        rw [hsp] at this
        simpa using this
      · simp [hc]

theorem splitConts_append (n : Nat) (bs ys cs rest : List Nat)
    (h : splitConts n bs = (cs, rest)) (hok : cs.length = n ∨ rest ≠ []) :
    splitConts n (bs ++ ys) = (cs, rest ++ ys) := by
  induction n generalizing bs cs rest with
  | zero =>
    rw [splitConts] at h
    injection h with h1 h2
    subst h1
    subst h2
    rfl
  | succ n ih =>
    cases bs with
    | nil =>
      rw [splitConts] at h
      injection h with h1 h2
      subst h1
      subst h2
      rcases hok with hok | hok
      · simp at hok
      · exact absurd rfl hok
    | cons b bs =>
      rw [splitConts] at h
      by_cases hc : isCont b
      · rw [if_pos hc] at h
        rcases hsp : splitConts n bs with ⟨cs1, r1⟩
        rw [hsp] at h
        injection h with h1 h2
        subst h2
        rw [List.cons_append, splitConts, if_pos hc]
        have hok1 : cs1.length = n ∨ r1 ≠ [] := by
          rcases hok with hok | hok
          · left
            rw [← h1] at hok
            simpa using hok
          · right
            exact hok
        rw [ih bs cs1 r1 hsp hok1]
        rw [← h1]
      · rw [if_neg hc] at h
        injection h with h1 h2
        subst h1
        subst h2
        rw [List.cons_append, splitConts, if_neg hc]

theorem decStep_cons_big (b : Nat) (bs cs r : List Nat) (h1 : ¬ b < 0x80)
    (h2 : ¬ contCount b = 0) (hsp : splitConts (contCount b) bs = (cs, r)) :
    decStep (b :: bs) =
      if cs.length = contCount b then DecStep.emit (assemble b cs) r
      else if r.isEmpty = true then DecStep.pend (b :: cs)
      else DecStep.emit replChar r := by
  rw [decStep, if_neg h1, if_neg h2, hsp]

theorem decStep_emit_length (l : List Nat) (c : Char) (rest : List Nat)
    (h : decStep l = .emit c rest) : rest.length < l.length := by
  cases l with
  | nil => rw [decStep] at h; exact absurd h (by simp)
  | cons b bs =>
    by_cases h1 : b < 0x80
    · rw [decStep, if_pos h1] at h
      injection h with _ h2
      subst h2
      simp
    · by_cases h2 : contCount b = 0
      · rw [decStep, if_neg h1, if_pos h2] at h
        injection h with _ h3
        subst h3
        simp
      · rcases hsp : splitConts (contCount b) bs with ⟨cs, r⟩
        rw [decStep_cons_big b bs cs r h1 h2 hsp] at h
        have hlen : r.length ≤ bs.length := by
          have := splitConts_eq (contCount b) bs
          rw [hsp] at this
          have := congrArg List.length this
          simp only [List.length_append] at this
          omega
        by_cases h3 : cs.length = contCount b
        · rw [if_pos h3] at h
          injection h with _ h4
          subst h4
          simp only [List.length_cons]
          omega
        · rw [if_neg h3] at h
          by_cases h4 : r.isEmpty = true
          · rw [if_pos h4] at h
            exact absurd h (by simp)
          · rw [if_neg h4] at h
            injection h with _ h5
            subst h5
            simp only [List.length_cons]
            omega

theorem decStep_pend_eq (l p : List Nat) (h : decStep l = .pend p) : p = l := by
  cases l with
  | nil =>
    rw [decStep] at h
    injection h with h1
    exact h1.symm
  | cons b bs =>
    by_cases h1 : b < 0x80
    · rw [decStep, if_pos h1] at h
      exact absurd h (by simp)
    · by_cases h2 : contCount b = 0
      · rw [decStep, if_neg h1, if_pos h2] at h
        exact absurd h (by simp)
      · rcases hsp : splitConts (contCount b) bs with ⟨cs, r⟩
        rw [decStep_cons_big b bs cs r h1 h2 hsp] at h
        by_cases h3 : cs.length = contCount b
        · rw [if_pos h3] at h
          exact absurd h (by simp)
        · rw [if_neg h3] at h
          by_cases h4 : r.isEmpty = true
          · rw [if_pos h4] at h
            injection h with h5
            have hr : r = [] := by
              cases r with
              | nil => rfl
              | cons x xs => simp at h4
            have hcs : cs ++ r = bs := by
              have := splitConts_eq (contCount b) bs
              rw [hsp] at this
              simpa using this
            rw [← h5, show cs = bs from by rw [← hcs, hr, List.append_nil]]
          · rw [if_neg h4] at h
            exact absurd h (by simp)

theorem decStep_emit_append (l : List Nat) (c : Char) (rest ys : List Nat)
    (h : decStep l = .emit c rest) : decStep (l ++ ys) = .emit c (rest ++ ys) := by
  cases l with
  | nil => rw [decStep] at h; exact absurd h (by simp)
  | cons b bs =>
    rw [List.cons_append]
    by_cases h1 : b < 0x80
    · rw [decStep, if_pos h1] at h
      injection h with h2 h3
      subst h2
      subst h3
      rw [decStep, if_pos h1]
    · by_cases h2 : contCount b = 0
      · rw [decStep, if_neg h1, if_pos h2] at h
        injection h with h3 h4
        subst h3
        subst h4
        rw [decStep, if_neg h1, if_pos h2]
      · rcases hsp : splitConts (contCount b) bs with ⟨cs, r⟩
        rw [decStep_cons_big b bs cs r h1 h2 hsp] at h
        by_cases h3 : cs.length = contCount b
        · rw [if_pos h3] at h
          injection h with h4 h5
          rw [decStep_cons_big b (bs ++ ys) cs (r ++ ys) h1 h2
            (splitConts_append (contCount b) bs ys cs r hsp (Or.inl h3))]
          rw [if_pos h3, h4, h5]
        · rw [if_neg h3] at h
          by_cases h4 : r.isEmpty = true
          · rw [if_pos h4] at h
            exact absurd h (by simp)
          · rw [if_neg h4] at h
            injection h with h5 h6
            have hr : r ≠ [] := by
              cases r with
              | nil => simp at h4
              | cons x xs => simp
            rw [decStep_cons_big b (bs ++ ys) cs (r ++ ys) h1 h2
              (splitConts_append (contCount b) bs ys cs r hsp (Or.inr hr))]
            rw [if_neg h3]
            have hre : (r ++ ys).isEmpty = false := by
              cases r with
              | nil => exact absurd rfl hr
              | cons x xs => rfl
            rw [if_neg (by rw [hre]; exact Bool.false_ne_true), h5, h6]

theorem utf8DecodeLoop_mono (fuel1 fuel2 : Nat) (l : List Nat)
    (h1 : l.length ≤ fuel1) (h2 : l.length ≤ fuel2) :
    utf8DecodeLoop fuel1 l = utf8DecodeLoop fuel2 l := by
  induction fuel1 generalizing fuel2 l with
  | zero =>
    have hl : l = [] := by
      cases l with
      | nil => rfl
      | cons x xs => simp at h1
    subst hl
    cases fuel2 with
    | zero => rfl
    | succ k => rfl
  | succ f ih =>
    cases fuel2 with
    | zero =>
      have hl : l = [] := by
        cases l with
        | nil => rfl
        | cons x xs => simp at h2
      subst hl
      rfl
    | succ k =>
      rw [utf8DecodeLoop, utf8DecodeLoop]
      cases hs : decStep l with
      | pend p => rfl
      | emit c rest =>
        have hr := decStep_emit_length l c rest hs
        show (match utf8DecodeLoop f rest with | (cs, pn) => (c :: cs, pn)) =
          (match utf8DecodeLoop k rest with | (cs, pn) => (c :: cs, pn))
        rw [ih k rest (by omega) (by omega)]

theorem utf8DecodeCore_eq (l : List Nat) :
    utf8DecodeCore l =
      match decStep l with
      | .pend p => ([], p)
      | .emit c rest => (c :: (utf8DecodeCore rest).1, (utf8DecodeCore rest).2) := by
  cases l with
  | nil => rfl
  | cons b bs =>
    show utf8DecodeLoop (bs.length + 1) (b :: bs) = _
    rw [utf8DecodeLoop]
    cases hs : decStep (b :: bs) with
    | pend p => rfl
    | emit c rest =>
      have hr := decStep_emit_length (b :: bs) c rest hs
      simp only [List.length_cons] at hr
      show (match utf8DecodeLoop bs.length rest with | (cs, pn) => (c :: cs, pn)) =
        (c :: (utf8DecodeCore rest).1, (utf8DecodeCore rest).2)
      rw [utf8DecodeLoop_mono bs.length rest.length rest (by omega) (by omega)]
      rfl

theorem utf8DecodeCore_append (xs ys : List Nat) :
    utf8DecodeCore (xs ++ ys) =
      ((utf8DecodeCore xs).1 ++ (utf8DecodeCore ((utf8DecodeCore xs).2 ++ ys)).1,
        (utf8DecodeCore ((utf8DecodeCore xs).2 ++ ys)).2) := by
  suffices H : ∀ (n : Nat) (xs : List Nat), xs.length = n → ∀ ys,
      utf8DecodeCore (xs ++ ys) =
        ((utf8DecodeCore xs).1 ++ (utf8DecodeCore ((utf8DecodeCore xs).2 ++ ys)).1,
          (utf8DecodeCore ((utf8DecodeCore xs).2 ++ ys)).2) by
    exact H xs.length xs rfl ys
  intro n
  induction n using Nat.strong_induction_on with
  | _ n ih =>
    intro xs hxs ys
    cases hs : decStep xs with
    | pend p =>
      have hp := decStep_pend_eq xs p hs
      subst hp
      rw [show utf8DecodeCore p = ([], p) from by rw [utf8DecodeCore_eq, hs]]
      rfl
    | emit c rest =>
      have hr := decStep_emit_length xs c rest hs
      have hx : utf8DecodeCore xs = (c :: (utf8DecodeCore rest).1, (utf8DecodeCore rest).2) := by
        rw [utf8DecodeCore_eq, hs]
      have hxy : utf8DecodeCore (xs ++ ys) =
          (c :: (utf8DecodeCore (rest ++ ys)).1, (utf8DecodeCore (rest ++ ys)).2) := by
        rw [utf8DecodeCore_eq, decStep_emit_append xs c rest ys hs]
      rw [hxy, hx]
      have hrec := ih rest.length (by omega) rest rfl ys
      rw [hrec]
      rfl

theorem splitConts_succ_cons (n : Nat) (b : Nat) (bs : List Nat) (h : isCont b = true) :
    splitConts (n+1) (b :: bs) =
      (b :: (splitConts n bs).1, (splitConts n bs).2) := by
  rw [splitConts, if_pos h]

theorem utf8EncodeChar_decStep (c : Char) (rest : List Nat) :
    decStep (utf8EncodeChar c ++ rest) = .emit c rest := by
  have hlt := char_toNat_lt c
  have hsur := char_not_surrogate c
  rw [utf8EncodeChar]
  by_cases h1 : c.toNat < 0x80
  · rw [if_pos h1]
    rw [List.cons_append, List.nil_append, decStep, if_pos h1, Char.ofNat_toNat]
  · rw [if_neg h1]
    by_cases h2 : c.toNat < 0x800
    · rw [if_pos h2]
      rw [List.cons_append, List.cons_append, List.nil_append]
      have hcc : contCount (0xC0 + c.toNat / 64) = 1 := by
        rw [contCount]
        rw [if_neg (by omega), if_pos (by omega)]
      have hcont : isCont (0x80 + c.toNat % 64) = true := by
        rw [isCont]
        simp only [Bool.and_eq_true, decide_eq_true_eq]
        omega
      have hsp : splitConts (contCount (0xC0 + c.toNat / 64))
          ((0x80 + c.toNat % 64) :: rest) = ([0x80 + c.toNat % 64], rest) := by
        rw [hcc]
        exact splitConts_succ_cons 0 _ rest hcont
      rw [decStep_cons_big _ _ _ _ (by omega) (by rw [hcc]; omega) hsp]
      rw [hcc]
      rw [if_pos (by simp)]
      have hasm : assemble (0xC0 + c.toNat / 64) [0x80 + c.toNat % 64] = c := by
        have hcp : List.foldl (fun a cc => a * 64 + (cc - 0x80))
            (leadVal (0xC0 + c.toNat / 64)) [0x80 + c.toNat % 64] = c.toNat := by
          rw [leadVal, if_pos (by omega)]
          simp only [List.foldl_cons, List.foldl_nil]
          omega
        have hmin : minCp (0xC0 + c.toNat / 64) = 0x80 := by
          rw [minCp, if_pos (by omega)]
        simp only [assemble]
        rw [hcp, hmin]
        rw [if_pos (by exact ⟨by omega, by omega, by omega⟩)]
        exact Char.ofNat_toNat c
      rw [hasm]
    · rw [if_neg h2]
      by_cases h3 : c.toNat < 0x10000
      · rw [if_pos h3]
        rw [List.cons_append, List.cons_append, List.cons_append, List.nil_append]
        have hcc : contCount (0xE0 + c.toNat / 4096) = 2 := by
          rw [contCount]
          rw [if_neg (by omega), if_neg (by omega), if_pos (by omega)]
        have hcont1 : isCont (0x80 + c.toNat / 64 % 64) = true := by
          rw [isCont]
          simp only [Bool.and_eq_true, decide_eq_true_eq]
          omega
        have hcont2 : isCont (0x80 + c.toNat % 64) = true := by
          rw [isCont]
          simp only [Bool.and_eq_true, decide_eq_true_eq]
          omega
        have hsp1 : splitConts 1 ((0x80 + c.toNat % 64) :: rest) =
            ([0x80 + c.toNat % 64], rest) :=
          splitConts_succ_cons 0 _ rest hcont2
        have hsp : splitConts (contCount (0xE0 + c.toNat / 4096))
            ((0x80 + c.toNat / 64 % 64) :: (0x80 + c.toNat % 64) :: rest) =
            ([0x80 + c.toNat / 64 % 64, 0x80 + c.toNat % 64], rest) := by
          rw [hcc]
          have := splitConts_succ_cons 1 (0x80 + c.toNat / 64 % 64)
            ((0x80 + c.toNat % 64) :: rest) hcont1
          rw [hsp1] at this
          exact this
        rw [decStep_cons_big _ _ _ _ (by omega) (by rw [hcc]; omega) hsp]
        rw [hcc]
        rw [if_pos (by simp)]
        have hasm : assemble (0xE0 + c.toNat / 4096)
            [0x80 + c.toNat / 64 % 64, 0x80 + c.toNat % 64] = c := by
          have hcp : List.foldl (fun a cc => a * 64 + (cc - 0x80))
              (leadVal (0xE0 + c.toNat / 4096))
              [0x80 + c.toNat / 64 % 64, 0x80 + c.toNat % 64] = c.toNat := by
            rw [leadVal, if_neg (by omega), if_pos (by omega)]
            simp only [List.foldl_cons, List.foldl_nil]
            omega
          have hmin : minCp (0xE0 + c.toNat / 4096) = 0x800 := by
            rw [minCp, if_neg (by omega), if_pos (by omega)]
          simp only [assemble]
          rw [hcp, hmin]
          rw [if_pos (by exact ⟨by omega, by omega, hsur⟩)]
          exact Char.ofNat_toNat c
        rw [hasm]
      · rw [if_neg h3]
        rw [List.cons_append, List.cons_append, List.cons_append, List.cons_append,
          List.nil_append]
        have hcc : contCount (0xF0 + c.toNat / 262144) = 3 := by
          rw [contCount]
          rw [if_neg (by omega), if_neg (by omega), if_neg (by omega), if_pos (by omega)]
        have hcont1 : isCont (0x80 + c.toNat / 4096 % 64) = true := by
          rw [isCont]
          simp only [Bool.and_eq_true, decide_eq_true_eq]
          omega
        have hcont2 : isCont (0x80 + c.toNat / 64 % 64) = true := by
          rw [isCont]
          simp only [Bool.and_eq_true, decide_eq_true_eq]
          omega
        have hcont3 : isCont (0x80 + c.toNat % 64) = true := by
          rw [isCont]
          simp only [Bool.and_eq_true, decide_eq_true_eq]
          omega
        have hsp1 : splitConts 1 ((0x80 + c.toNat % 64) :: rest) =
            ([0x80 + c.toNat % 64], rest) :=
          splitConts_succ_cons 0 _ rest hcont3
        have hsp2 : splitConts 2 ((0x80 + c.toNat / 64 % 64) ::
            (0x80 + c.toNat % 64) :: rest) =
            ([0x80 + c.toNat / 64 % 64, 0x80 + c.toNat % 64], rest) := by
          have := splitConts_succ_cons 1 (0x80 + c.toNat / 64 % 64)
            ((0x80 + c.toNat % 64) :: rest) hcont2
          rw [hsp1] at this
          exact this
        have hsp : splitConts (contCount (0xF0 + c.toNat / 262144))
            ((0x80 + c.toNat / 4096 % 64) :: (0x80 + c.toNat / 64 % 64) ::
              (0x80 + c.toNat % 64) :: rest) =
            ([0x80 + c.toNat / 4096 % 64, 0x80 + c.toNat / 64 % 64, 0x80 + c.toNat % 64],
              rest) := by
          rw [hcc]
          have := splitConts_succ_cons 2 (0x80 + c.toNat / 4096 % 64)
            ((0x80 + c.toNat / 64 % 64) :: (0x80 + c.toNat % 64) :: rest) hcont1
          rw [hsp2] at this
          exact this
        rw [decStep_cons_big _ _ _ _ (by omega) (by rw [hcc]; omega) hsp]
        rw [hcc]
        rw [if_pos (by simp)]
        have hasm : assemble (0xF0 + c.toNat / 262144)
            [0x80 + c.toNat / 4096 % 64, 0x80 + c.toNat / 64 % 64, 0x80 + c.toNat % 64] = c := by
          have hcp : List.foldl (fun a cc => a * 64 + (cc - 0x80))
              (leadVal (0xF0 + c.toNat / 262144))
              [0x80 + c.toNat / 4096 % 64, 0x80 + c.toNat / 64 % 64, 0x80 + c.toNat % 64] =
              c.toNat := by
            rw [leadVal, if_neg (by omega), if_neg (by omega)]
            simp only [List.foldl_cons, List.foldl_nil]
            omega
          have hmin : minCp (0xF0 + c.toNat / 262144) = 0x10000 := by
            rw [minCp, if_neg (by omega), if_neg (by omega)]
          simp only [assemble]
          rw [hcp, hmin]
          rw [if_pos (by exact ⟨by omega, hlt, by omega⟩)]
          exact Char.ofNat_toNat c
        rw [hasm]

theorem utf8DecodeCore_encode (cs : List Char) : utf8DecodeCore (utf8Encode cs) = (cs, []) := by
  induction cs with
  | nil => rfl
  | cons c cs ih =>
    rw [utf8Encode, List.map_cons, List.flatten_cons]
    rw [utf8DecodeCore_eq]
    rw [utf8EncodeChar_decStep c ((cs.map utf8EncodeChar).flatten)]
    show (c :: (utf8DecodeCore ((cs.map utf8EncodeChar).flatten)).1,
      (utf8DecodeCore ((cs.map utf8EncodeChar).flatten)).2) = (c :: cs, [])
    rw [show ((cs.map utf8EncodeChar).flatten) = utf8Encode cs from rfl, ih]

/-! ## Lemmas: record framing -/

theorem consHead_ne_nil (c : Char) (S : List (List Char)) : consHead c S ≠ [] := by
  cases S <;> simp [consHead]

theorem splitRecords_ne_nil (l : List Char) : splitRecords l ≠ [] := by
  induction l using splitRecords.induct with
  | case1 => simp [splitRecords]
  | case2 rest ih =>
    rw [splitRecords.eq_2]
    simp
  | case3 c rest h ih =>
    rw [splitRecords.eq_3 c rest h]
    exact consHead_ne_nil c _

theorem joinSep_splitRecords (l : List Char) : joinSep (splitRecords l) = l := by
  induction l using splitRecords.induct with
  | case1 => rfl
  | case2 rest ih =>
    rw [splitRecords.eq_2]
    rcases hS : splitRecords rest with _ | ⟨s, ss⟩
    · exact absurd hS (splitRecords_ne_nil rest)
    · rw [hS] at ih
      show joinSep ([] :: s :: ss) = '\n' :: '\n' :: rest
      rw [show joinSep ([] :: s :: ss) = [] ++ '\n' :: '\n' :: joinSep (s :: ss) from rfl]
      rw [List.nil_append, ih]
  | case3 c rest h ih =>
    rw [splitRecords.eq_3 c rest h]
    rcases hS : splitRecords rest with _ | ⟨s, ss⟩
    · exact absurd hS (splitRecords_ne_nil rest)
    · rw [hS] at ih
      cases ss with
      | nil =>
        show joinSep [c :: s] = c :: rest
        have hs : s = rest := ih
        rw [show joinSep [c :: s] = c :: s from rfl, hs]
      | cons s2 ss2 =>
        show joinSep ((c :: s) :: s2 :: ss2) = c :: rest
        rw [show joinSep ((c :: s) :: s2 :: ss2) =
          (c :: s) ++ '\n' :: '\n' :: joinSep (s2 :: ss2) from rfl]
        rw [List.cons_append]
        rw [show s ++ '\n' :: '\n' :: joinSep (s2 :: ss2) = rest from ih]

theorem splitRecords_append (a b : List Char) :
    splitRecords (a ++ b) =
      (splitRecords a).dropLast ++ splitRecords ((splitRecords a).getLastD [] ++ b) := by
  induction a using splitRecords.induct with
  | case1 =>
    rw [List.nil_append]
    rfl
  | case2 rest ih =>
    rw [show ('\n' :: '\n' :: rest) ++ b = '\n' :: '\n' :: (rest ++ b) from rfl]
    rw [splitRecords.eq_2, splitRecords.eq_2, ih]
    rcases hS : splitRecords rest with _ | ⟨s, ss⟩
    · exact absurd hS (splitRecords_ne_nil rest)
    · rw [show ([] :: s :: ss).dropLast = [] :: (s :: ss).dropLast from rfl]
      rw [show ([] :: s :: ss).getLastD [] = (s :: ss).getLastD [] from rfl]
      rfl
  | case3 c rest h ih =>
    cases hrest : rest with
    | nil =>
      subst hrest
      rw [show ([c] ++ b) = c :: ([] ++ b) from rfl, List.nil_append]
      rw [show splitRecords [c] = [[c]] from by
        rw [splitRecords.eq_3 c [] h]
        rfl]
      rfl
    | cons r1 rest' =>
      subst hrest
      have hmiss : ∀ (z : List Char), c = '\n' →
          (r1 :: rest') ++ b = '\n' :: z → False := by
        intro z hc hr
        rw [List.cons_append] at hr
        injection hr with hr1 _
        exact h (rest' : List Char) hc (by rw [hr1])
      rw [show (c :: r1 :: rest') ++ b = c :: ((r1 :: rest') ++ b) from rfl]
      rw [splitRecords.eq_3 c _ hmiss, ih]
      rw [splitRecords.eq_3 c _ h]
      rcases hS : splitRecords (r1 :: rest') with _ | ⟨s, ss⟩
      · exact absurd hS (splitRecords_ne_nil _)
      · cases ss with
        | nil =>
          have hsrest : s = r1 :: rest' := by
            have := joinSep_splitRecords (r1 :: rest')
            rw [hS] at this
            exact this
          rw [show consHead c [s] = [c :: s] from rfl]
          rw [show ([s] : List (List Char)).dropLast = [] from rfl]
          rw [show ([s] : List (List Char)).getLastD [] = s from rfl]
          rw [show ([c :: s] : List (List Char)).dropLast = [] from rfl]
          rw [show ([c :: s] : List (List Char)).getLastD [] = c :: s from rfl]
          rw [List.nil_append, List.nil_append]
          have hmiss2 : ∀ (z : List Char), c = '\n' → s ++ b = '\n' :: z → False := by
            intro z hc hr
            rw [hsrest, List.cons_append] at hr
            injection hr with hr1 _
            exact h (rest' : List Char) hc (by rw [hr1])
          rw [show (c :: s) ++ b = c :: (s ++ b) from rfl]
          rw [splitRecords.eq_3 c _ hmiss2]
        | cons s2 ss2 =>
          rw [show consHead c (s :: s2 :: ss2) = (c :: s) :: s2 :: ss2 from rfl]
          rw [show ((c :: s) :: s2 :: ss2).dropLast = (c :: s) :: (s2 :: ss2).dropLast from rfl]
          rw [show ((c :: s) :: s2 :: ss2).getLastD [] = (s2 :: ss2).getLastD [] from rfl]
          rw [show (s :: s2 :: ss2).dropLast = s :: (s2 :: ss2).dropLast from rfl]
          rw [show (s :: s2 :: ss2).getLastD [] = (s2 :: ss2).getLastD [] from rfl]
          rfl

theorem sepFree_tail (c c2 : Char) (l : List Char)
    (h : sepFree (c :: c2 :: l) = true) : sepFree (c2 :: l) = true := by
  by_cases hc : c = '\n' ∧ c2 = '\n'
  · obtain ⟨hc1, hc2⟩ := hc
    subst hc1
    subst hc2
    rw [show sepFree ('\n' :: '\n' :: l) = false from rfl] at h
    exact absurd h (by simp)
  · have hmiss : ∀ (z : List Char), c = '\n' → c2 :: l = '\n' :: z → False := by
      intro z h1 h2
      injection h2 with h21 _
      exact hc ⟨h1, h21⟩
    rw [sepFree.eq_2 c (c2 :: l) hmiss] at h
    exact h

theorem splitRecords_line (l t : List Char) (hsep : sepFree l = true)
    (hnl : l.getLast? ≠ some '\n') :
    splitRecords (l ++ '\n' :: '\n' :: t) = l :: splitRecords t := by
  induction l with
  | nil =>
    rw [List.nil_append, splitRecords.eq_2]
  | cons c l' ih =>
    cases l' with
    | nil =>
      have hc : ¬ c = '\n' := by
        intro hc
        rw [show ([c] : List Char).getLast? = some c from rfl] at hnl
        rw [hc] at hnl
        exact hnl rfl
      rw [show ([c] ++ '\n' :: '\n' :: t) = c :: '\n' :: '\n' :: t from rfl]
      rw [splitRecords.eq_3 c _ (by intro z h1 _; exact hc h1)]
      rw [splitRecords.eq_2]
      rfl
    | cons c2 l'' =>
      have hsep2 : sepFree (c2 :: l'') = true := sepFree_tail c c2 l'' hsep
      have hnl2 : (c2 :: l'').getLast? ≠ some '\n' := by
        rw [List.getLast?_cons_cons] at hnl
        exact hnl
      have hcc : ∀ (z : List Char), c = '\n' → c2 :: l'' = '\n' :: z → False := by
        intro z h1 h2
        injection h2 with h21 _
        subst h1
        rw [h21] at hsep
        rw [show sepFree ('\n' :: '\n' :: l'') = false from rfl] at hsep
        exact absurd hsep (by simp)
      have hmiss : ∀ (z : List Char), c = '\n' →
          (c2 :: l'') ++ '\n' :: '\n' :: t = '\n' :: z → False := by
        intro z h1 h2
        rw [List.cons_append] at h2
        injection h2 with h21 _
        exact hcc l'' h1 (by rw [h21])
      rw [show (c :: c2 :: l'') ++ '\n' :: '\n' :: t =
        c :: ((c2 :: l'') ++ '\n' :: '\n' :: t) from rfl]
      rw [splitRecords.eq_3 c _ hmiss]
      rw [ih hsep2 hnl2]
      rfl

theorem splitRecords_lines (lines : List (List Char))
    (h : ∀ l ∈ lines, sepFree l = true ∧ l.getLast? ≠ some '\n') :
    splitRecords ((lines.map (fun l => l ++ ['\n', '\n'])).flatten) = lines ++ [[]] := by
  induction lines with
  | nil => rfl
  | cons l ls ih =>
    rw [List.map_cons, List.flatten_cons]
    rw [show (l ++ ['\n', '\n']) ++ (ls.map (fun l => l ++ ['\n', '\n'])).flatten =
      l ++ '\n' :: '\n' :: (ls.map (fun l => l ++ ['\n', '\n'])).flatten from by
      rw [List.append_assoc]
      rfl]
    rw [splitRecords_line l _ (h l (List.mem_cons_self l ls)).1 (h l (List.mem_cons_self l ls)).2]
    rw [ih fun x hx => h x (List.mem_cons_of_mem l hx)]
    rfl

/-! ## Lemmas: the transport loop is grouping-invariant -/

theorem processRead_eq (botId : List Char) (ls : LoopState) (bytes : List Nat) :
    processRead botId ls bytes =
      match runLines botId ls.chat
        (splitRecords (ls.buffer ++ (utf8DecodeCore (ls.decPending ++ bytes)).1)).dropLast with
      | .ok st => .ok ⟨(utf8DecodeCore (ls.decPending ++ bytes)).2,
          (splitRecords (ls.buffer ++ (utf8DecodeCore (ls.decPending ++ bytes)).1)).getLastD [],
          st⟩
      | .error st => .error st := by
  rw [processRead]

theorem getLastD_append_ne_nil {α : Type} (l1 l2 : List α) (d : α) (h : l2 ≠ []) :
    (l1 ++ l2).getLastD d = l2.getLastD d := by
  rw [List.getLastD_eq_getLast?, List.getLastD_eq_getLast?, List.getLast?_append_of_ne_nil _ h]

theorem processRead_append (botId : List Char) (ls : LoopState) (b1 b2 : List Nat) :
    (match processRead botId ls b1 with
     | .ok ls1 => processRead botId ls1 b2
     | .error st => .error st) = processRead botId ls (b1 ++ b2) := by
  have hdec : utf8DecodeCore (ls.decPending ++ (b1 ++ b2)) =
      ((utf8DecodeCore (ls.decPending ++ b1)).1 ++
        (utf8DecodeCore ((utf8DecodeCore (ls.decPending ++ b1)).2 ++ b2)).1,
        (utf8DecodeCore ((utf8DecodeCore (ls.decPending ++ b1)).2 ++ b2)).2) := by
    rw [← List.append_assoc]
    exact utf8DecodeCore_append (ls.decPending ++ b1) b2
  have hS2ne : splitRecords ((splitRecords (ls.buffer ++
      (utf8DecodeCore (ls.decPending ++ b1)).1)).getLastD [] ++
      (utf8DecodeCore ((utf8DecodeCore (ls.decPending ++ b1)).2 ++ b2)).1) ≠ [] :=
    splitRecords_ne_nil _
  have hsplit : splitRecords (ls.buffer ++ (utf8DecodeCore (ls.decPending ++ (b1 ++ b2))).1) =
      (splitRecords (ls.buffer ++ (utf8DecodeCore (ls.decPending ++ b1)).1)).dropLast ++
        splitRecords ((splitRecords (ls.buffer ++
          (utf8DecodeCore (ls.decPending ++ b1)).1)).getLastD [] ++
          (utf8DecodeCore ((utf8DecodeCore (ls.decPending ++ b1)).2 ++ b2)).1) := by
    rw [hdec]
    rw [show ls.buffer ++ ((utf8DecodeCore (ls.decPending ++ b1)).1 ++
      (utf8DecodeCore ((utf8DecodeCore (ls.decPending ++ b1)).2 ++ b2)).1) =
      (ls.buffer ++ (utf8DecodeCore (ls.decPending ++ b1)).1) ++
      (utf8DecodeCore ((utf8DecodeCore (ls.decPending ++ b1)).2 ++ b2)).1 from by
      rw [List.append_assoc]]
    exact splitRecords_append _ _
  rw [processRead_eq botId ls (b1 ++ b2), processRead_eq botId ls b1]
  rw [hsplit]
  rw [hdec]
  rw [List.dropLast_append_of_ne_nil _ hS2ne]
  rw [getLastD_append_ne_nil _ _ _ hS2ne]
  rw [runLines_append]
  cases hr1 : runLines botId ls.chat
      (splitRecords (ls.buffer ++ (utf8DecodeCore (ls.decPending ++ b1)).1)).dropLast with
  | error st => rfl
  | ok st =>
    show processRead botId ⟨(utf8DecodeCore (ls.decPending ++ b1)).2,
      (splitRecords (ls.buffer ++ (utf8DecodeCore (ls.decPending ++ b1)).1)).getLastD [],
      st⟩ b2 = _
    rw [processRead_eq]

theorem runReads_cons (botId : List Char) (ls : LoopState) (r : List Nat)
    (rs : List (List Nat)) :
    runReads botId ls (r :: rs) =
      match processRead botId ls r with
      | .ok ls1 => runReads botId ls1 rs
      | .error st => .error st := by
  rw [runReads, List.foldlM_cons]
  cases processRead botId ls r <;> rfl

theorem runReads_collapse (botId : List Char) (reads : List (List Nat)) (hne : reads ≠ [])
    (ls : LoopState) : runReads botId ls reads = processRead botId ls reads.flatten := by
  induction reads generalizing ls with
  | nil => exact absurd rfl hne
  | cons r rs ih =>
    rw [runReads_cons]
    cases rs with
    | nil =>
      rw [List.flatten_cons, List.flatten_nil, List.append_nil]
      cases hp : processRead botId ls r with
      | ok ls1 =>
        show runReads botId ls1 [] = Except.ok ls1
        rfl
      | error st => rfl
    | cons r2 rs2 =>
      rw [List.flatten_cons, ← processRead_append botId ls r (r2 :: rs2).flatten]
      cases hp : processRead botId ls r with
      | ok ls1 => exact ih (by simp) ls1
      | error st => rfl

theorem utf8EncodeChar_ne_nil (c : Char) : utf8EncodeChar c ≠ [] := by
  rw [utf8EncodeChar]
  by_cases h1 : c.toNat < 0x80
  · rw [if_pos h1]
    simp
  · rw [if_neg h1]
    by_cases h2 : c.toNat < 0x800
    · rw [if_pos h2]
      simp
    · rw [if_neg h2]
      by_cases h3 : c.toNat < 0x10000
      · rw [if_pos h3]
        simp
      · rw [if_neg h3]
        simp

theorem utf8Encode_eq_nil (cs : List Char) (h : utf8Encode cs = []) : cs = [] := by
  cases cs with
  | nil => rfl
  | cons c cs =>
    rw [utf8Encode, List.map_cons, List.flatten_cons] at h
    rcases List.append_eq_nil.mp h with ⟨h1, _⟩
    exact absurd h1 (utf8EncodeChar_ne_nil c)

/-- The whole transport loop is grouping-invariant: a run over any byte
grouping of the encoded record stream behaves exactly like the
record-level run over those records. -/
theorem handleSubmit_bridge (userId botId sysId input : List Char) (msgs0 : List Message)
    (lines : List (List Char)) (reads : List (List Nat))
    (hlines : ∀ l ∈ lines, sepFree l = true ∧ l.getLast? ≠ some '\n')
    (hbytes : reads.flatten = utf8Encode ((lines.map (fun l => l ++ ['\n', '\n'])).flatten)) :
    handleSubmit userId botId sysId input msgs0 reads =
      handleSubmitLines userId botId sysId input msgs0 lines := by
  cases hre : reads with
  | nil =>
    have hT : utf8Encode ((lines.map (fun l => l ++ ['\n', '\n'])).flatten) = [] := by
      rw [← hbytes, hre]
      rfl
    have hl : lines = [] := by
      have := utf8Encode_eq_nil _ hT
      cases lines with
      | nil => rfl
      | cons l ls =>
        rw [List.map_cons, List.flatten_cons] at this
        rcases List.append_eq_nil.mp this with ⟨h1, _⟩
        rcases List.append_eq_nil.mp h1 with ⟨_, h2⟩
        exact absurd h2 (by simp)
    subst hl
    rfl
  | cons r rs =>
    rw [← hre]
    rw [handleSubmit, handleStreamBytes,
      runReads_collapse botId reads (by rw [hre]; simp) _]
    have hdec : utf8DecodeCore (([] : List Nat) ++ reads.flatten) =
        (((lines.map (fun l => l ++ ['\n', '\n'])).flatten), []) := by
      rw [List.nil_append, hbytes, utf8DecodeCore_encode]
    rw [processRead_eq, hdec]
    rw [show ([] : List Char) ++ ((lines.map (fun l => l ++ ['\n', '\n'])).flatten) =
      (lines.map (fun l => l ++ ['\n', '\n'])).flatten from List.nil_append _]
    rw [splitRecords_lines lines hlines]
    rw [List.dropLast_concat]
    rw [handleSubmitLines, handleStreamLines]
    cases hrl : runLines botId (initialState userId botId input msgs0) lines with
    | ok st => rfl
    | error st => rfl

/-- Chunk-only event lists project to exactly their payloads. -/
theorem chunkPayloads_map_chunkEv (qs : List (List Char)) :
    chunkPayloads (qs.map ChatEvent.chunkEv) = qs := by
  induction qs with
  | nil => rfl
  | cons q qs ih =>
    show q :: chunkPayloads (qs.map ChatEvent.chunkEv) = q :: qs
    rw [ih]

/-- Chunk-only event lists carry no source payloads. -/
theorem sourcePayloads_map_chunkEv (qs : List (List Char)) :
    sourcePayloads (qs.map ChatEvent.chunkEv) = [] := by
  induction qs with
  | nil => rfl
  | cons q qs ih =>
    show sourcePayloads (qs.map ChatEvent.chunkEv) = []
    exact ih

/-- Pointwise chunk recognition lifts to the event relation. -/
theorem forall2_chunkEv (ps lines : List (List Char))
    (h : List.Forall₂ (fun p line => isChunkLine p line = true) ps lines) :
    List.Forall₂ lineMatches (ps.map ChatEvent.chunkEv) lines := by
  induction h with
  | nil => exact List.Forall₂.nil
  | cons hpl _ ih => exact List.Forall₂.cons hpl ih

/-- C1: for every sequence of chunk events c1..cn delivered in order on one
chat stream, regardless of how the encoded record stream is grouped into
transport-level reads — including groupings that split a record or a
multi-byte UTF-8 code point across read boundaries — the assistant
message's final text is the concatenation of the chunk payloads (and the
prior log and the user message are preserved, with no extra message). -/
theorem chunk_text_grouping_invariant (userId botId sysId input : List Char)
    (msgs0 : List Message) (ps : List (List Char)) (lines : List (List Char))
    (reads : List (List Nat))
    (hfor : List.Forall₂ (fun p line => isChunkLine p line = true) ps lines)
    (hclean : ∀ l ∈ lines, sepFree l = true ∧ l.getLast? ≠ some '\n')
    (hbytes : reads.flatten =
      utf8Encode ((lines.map (fun l => l ++ ['\n', '\n'])).flatten))
    (h0 : idFree botId msgs0 = true)
    (hu : (userId == botId) = false)
    (hsys : (sysId == botId) = false) :
    handleSubmit userId botId sysId input msgs0 reads =
      msgs0 ++ [mkUserMessage userId input,
        ⟨botId, .bot, ps.flatten, false, none⟩] := by
  rw [handleSubmit_bridge userId botId sysId input msgs0 lines reads hclean hbytes]
  rw [handleSubmitLines_events userId botId sysId input msgs0
    (ps.map ChatEvent.chunkEv) lines (forall2_chunkEv ps lines hfor) h0 hu hsys]
  rw [sourcePayloads_map_chunkEv, chunkPayloads_map_chunkEv]
  rfl

/-- C1 witness: the two chunk payloads Hé and llo, encoded as two
separator-terminated records and regrouped into two reads whose boundary
falls between the two bytes of é (byte 35 is mid code point and
mid record); the bot text still comes out as Héllo. -/
theorem chunk_text_grouping_invariant_witness :
    handleSubmit "u".data "b".data "s".data "hi".data []
      [(utf8Encode (([ "data: \x7b\"type\":\"chunk\",\"payload\":\"Hé\"\x7d".data,
          "data: \x7b\"type\":\"chunk\",\"payload\":\"llo\"\x7d".data].map
            (fun l => l ++ ['\n', '\n'])).flatten)).take 35,
       (utf8Encode (([ "data: \x7b\"type\":\"chunk\",\"payload\":\"Hé\"\x7d".data,
          "data: \x7b\"type\":\"chunk\",\"payload\":\"llo\"\x7d".data].map
            (fun l => l ++ ['\n', '\n'])).flatten)).drop 35] =
      [] ++ [mkUserMessage "u".data "hi".data,
        ⟨"b".data, .bot, ["Hé".data, "llo".data].flatten, false, none⟩] :=
  chunk_text_grouping_invariant "u".data "b".data "s".data "hi".data []
    ["Hé".data, "llo".data]
    ["data: \x7b\"type\":\"chunk\",\"payload\":\"Hé\"\x7d".data,
     "data: \x7b\"type\":\"chunk\",\"payload\":\"llo\"\x7d".data]
    _
    (List.Forall₂.cons (by decide) (List.Forall₂.cons (by decide) List.Forall₂.nil))
    (by decide)
    (by rw [List.flatten_cons, List.flatten_cons, List.flatten_nil,
      List.append_nil, List.take_append_drop])
    rfl rfl rfl

end Alloy
